import Mathlib

/-! # smart-grocery-agent: a shallow embedding and its verified properties

The development embeds the Go sources

* `internal/services/ai_agent.go` (substitution lookup, orchestrator),
* `internal/handlers/grocery.go` (HTTP handler)

as executable Lean definitions and proves properties of them.

Modelling conventions.

* A Go `string` is a Lean `String`, i.e. a sequence of Unicode code points (valid UTF-8).
  Positions returned by `strings.Index` / `strings.LastIndex` are counted in code points
  instead of bytes; both searches look for an ASCII character, so slicing between the two
  positions selects the same text either way.
* A Go `map[string]V` is an association list `GoMap V` with pairwise distinct keys; it is only
  observed through `GoMap.lookup` and `GoMap.keys`.  A nil map and an empty map are both `[]`
  (Go treats them alike for `range`, `len` and lookups), and so are a nil and an empty slice.
* Go's multiple return values `(T, error)` are pairs whose components are `Option`s, `none`
  standing for `nil`.
* The Unicode lower-case mapping of code points outside ASCII (a table of the Go runtime) is
  a parameter `U : Char → Char` of everything that lower-cases.
-/

set_option autoImplicit false

/-! ## Go maps -/

/-- A Go `map[string]V`, as an association list. -/
abbrev GoMap (V : Type) := List (String × V)

namespace GoMap

variable {V : Type}

/-- The value stored under `k` (`v, ok := m[k]`). -/
def lookup : GoMap V → String → Option V
  | [], _ => none
  | (k', v) :: rest, k => if k' = k then some v else lookup rest k

/-- The assignment `m[k] = v`: overwrite an existing entry, otherwise add one. -/
def set : GoMap V → String → V → GoMap V
  | [], k, v => [(k, v)]
  | (k', v') :: rest, k, v => if k' = k then (k, v) :: rest else (k', v') :: set rest k v

/-- The keys of the map. -/
def keys (m : GoMap V) : List String := m.map Prod.fst

end GoMap

/-! ## The parts of package `strings` the program uses -/

namespace strings

/-- Go's `unicode.IsSpace`: the code points with the Unicode White_Space property. -/
def isSpace (c : Char) : Bool :=
  let n := c.toNat
  (9 ≤ n && n ≤ 13) || n == 0x20 || n == 0x85 || n == 0xA0 || n == 0x1680 ||
  (0x2000 ≤ n && n ≤ 0x200A) || n == 0x2028 || n == 0x2029 || n == 0x202F ||
  n == 0x205F || n == 0x3000

/-- Removes the trailing white space of a list of code points. -/
def trimRight : List Char → List Char
  | [] => []
  | c :: cs =>
    match trimRight cs with
    | [] => if isSpace c then [] else [c]
    | r => c :: r

/-- Go's `strings.TrimSpace`: drops leading and trailing white space. -/
def TrimSpace (s : String) : String :=
  ⟨trimRight (s.data.dropWhile isSpace)⟩

/-- Go's `unicode.ToLower` on one code point: `A`..`Z` are shifted to `a`..`z`, the rest of
ASCII is unchanged, and code points beyond ASCII are mapped by the Unicode table `U`. -/
def toLowerRune (U : Char → Char) (c : Char) : Char :=
  if c.toNat < 128 then
    if 65 ≤ c.toNat ∧ c.toNat ≤ 90 then Char.ofNat (c.toNat + 32) else c
  else U c

/-- Go's `strings.ToLower`: every code point mapped to lower case. -/
def ToLower (U : Char → Char) (s : String) : String :=
  ⟨s.data.map (toLowerRune U)⟩

end strings

/-! ## Package `services`: the substitution lookup -/

namespace services

/-- The type `IngredientMap`: meals mapped to their ingredients. -/
abbrev IngredientMap := GoMap (List String)

/-- The `switch strings.ToLower(meal) { ... }` of `ExpandMeals`: the key and the ingredient
list assigned by the matching `case`, `none` for the `default` case. -/
def mealCase (lowered : String) : Option (String × List String) :=
  match lowered with
  | "pasta" => some ("pasta", ["spaghetti", "olive oil", "garlic", "tomatoes"])
  | "salad" => some ("salad", ["lettuce", "tomatoes", "cucumber", "olive oil"])
  | "pancakes" => some ("pancakes", ["flour", "milk", "eggs", "baking powder"])
  | _ => none

/-- The loop of `ExpandMeals` over the meals still to visit: it returns the map once all
meals are visited, or a nil map and an error at the first unknown meal. -/
def expandLoop (U : Char → Char) :
    List String → IngredientMap → Option IngredientMap × Option String
  | [], ingredients => (some ingredients, none)
  | meal :: rest, ingredients =>
    match mealCase (strings.ToLower U meal) with
    | some (key, list) => expandLoop U rest (ingredients.set key list)
    | none => (none, some ("unknown meal: " ++ meal))

/-- `AIAgent.ExpandMeals`: the map of ingredients (nil on failure) and the error. -/
def ExpandMeals (U : Char → Char) (meals : List String) :
    Option IngredientMap × Option String :=
  if meals.length = 0 then (none, some "no meals provided")
  else expandLoop U meals []

/-- The `switch normalizedIngredient { ... }` of `SuggestHealthierSwaps`: the suggestion
assigned by the matching `case`, `none` when no case matches. -/
def swapCase (normalizedIngredient : String) : Option String :=
  match normalizedIngredient with
  -- Flours and grains
  | "flour" | "white flour" | "all-purpose flour" => some "almond flour or whole wheat flour"
  | "white rice" => some "brown rice or quinoa"
  | "pasta" | "white pasta" => some "whole grain pasta or zucchini noodles"
  | "bread" | "white bread" => some "whole grain bread or ezekiel bread"
  | "breadcrumbs" => some "almond meal or ground flaxseed"
  -- Dairy products
  | "milk" | "whole milk" => some "oat milk or almond milk"
  | "cream" | "heavy cream" => some "coconut cream or cashew cream"
  | "sour cream" => some "greek yogurt"
  | "butter" => some "ghee or coconut oil"
  | "cheese" | "cheddar cheese" => some "nutritional yeast or cashew cheese"
  | "ice cream" => some "banana nice cream or coconut milk ice cream"
  -- Oils and fats
  | "vegetable oil" | "canola oil" => some "avocado oil or olive oil"
  | "olive oil" => some "avocado oil"
  | "margarine" => some "coconut oil or avocado oil spread"
  -- Sweeteners
  | "sugar" | "white sugar" => some "maple syrup, honey, or monk fruit sweetener"
  | "brown sugar" => some "coconut sugar"
  | "corn syrup" => some "maple syrup or date syrup"
  -- Proteins
  | "ground beef" => some "lean ground turkey or plant-based ground"
  | "bacon" => some "turkey bacon or tempeh bacon"
  | "chicken" | "chicken breast" => some "organic free-range chicken"
  | "tuna" | "canned tuna" => some "wild-caught salmon"
  -- Snacks and processed foods
  | "potato chips" => some "baked vegetable chips or air-popped popcorn"
  | "crackers" | "white crackers" => some "whole grain crackers or seed crackers"
  | "chocolate" | "milk chocolate" => some "dark chocolate (70%+ cacao)"
  | "candy" => some "dried fruit or dark chocolate"
  -- Condiments and sauces
  | "mayonnaise" | "mayo" => some "avocado-based mayo or greek yogurt"
  | "ketchup" => some "tomato paste or sugar-free ketchup"
  | "ranch dressing" => some "greek yogurt-based dressing"
  | "soy sauce" => some "coconut aminos or tamari"
  | "salt" | "table salt" => some "himalayan pink salt or sea salt"
  -- Baking ingredients
  | "baking powder" => some "aluminum-free baking powder"
  | "chocolate chips" => some "cacao nibs or dark chocolate chips"
  -- Beverages
  | "soda" | "cola" => some "sparkling water with fresh fruit"
  | "fruit juice" => some "whole fruits or vegetable juice"
  | "coffee creamer" => some "almond milk or coconut milk"
  | _ => none

/-- The substitution table as data: each row lists the aliases of one `case` of the switch
and the suggestion that case assigns. -/
def swapTable : List (List String × String) := [
  (["flour", "white flour", "all-purpose flour"], "almond flour or whole wheat flour"),
  (["white rice"], "brown rice or quinoa"),
  (["pasta", "white pasta"], "whole grain pasta or zucchini noodles"),
  (["bread", "white bread"], "whole grain bread or ezekiel bread"),
  (["breadcrumbs"], "almond meal or ground flaxseed"),
  (["milk", "whole milk"], "oat milk or almond milk"),
  (["cream", "heavy cream"], "coconut cream or cashew cream"),
  (["sour cream"], "greek yogurt"),
  (["butter"], "ghee or coconut oil"),
  (["cheese", "cheddar cheese"], "nutritional yeast or cashew cheese"),
  (["ice cream"], "banana nice cream or coconut milk ice cream"),
  (["vegetable oil", "canola oil"], "avocado oil or olive oil"),
  (["olive oil"], "avocado oil"),
  (["margarine"], "coconut oil or avocado oil spread"),
  (["sugar", "white sugar"], "maple syrup, honey, or monk fruit sweetener"),
  (["brown sugar"], "coconut sugar"),
  (["corn syrup"], "maple syrup or date syrup"),
  (["ground beef"], "lean ground turkey or plant-based ground"),
  (["bacon"], "turkey bacon or tempeh bacon"),
  (["chicken", "chicken breast"], "organic free-range chicken"),
  (["tuna", "canned tuna"], "wild-caught salmon"),
  (["potato chips"], "baked vegetable chips or air-popped popcorn"),
  (["crackers", "white crackers"], "whole grain crackers or seed crackers"),
  (["chocolate", "milk chocolate"], "dark chocolate (70%+ cacao)"),
  (["candy"], "dried fruit or dark chocolate"),
  (["mayonnaise", "mayo"], "avocado-based mayo or greek yogurt"),
  (["ketchup"], "tomato paste or sugar-free ketchup"),
  (["ranch dressing"], "greek yogurt-based dressing"),
  (["soy sauce"], "coconut aminos or tamari"),
  (["salt", "table salt"], "himalayan pink salt or sea salt"),
  (["baking powder"], "aluminum-free baking powder"),
  (["chocolate chips"], "cacao nibs or dark chocolate chips"),
  (["soda", "cola"], "sparkling water with fresh fruit"),
  (["fruit juice"], "whole fruits or vegetable juice"),
  (["coffee creamer"], "almond milk or coconut milk")]

/-- The aliases of the substitution table: every literal of every `case`. -/
def aliases : List String := (swapTable.map Prod.fst).flatten

/-- The suggestion the table holds for a normalised name: that of the first row listing it. -/
def tableSuggestion (n : String) : Option String :=
  (swapTable.find? (fun row => decide (n ∈ row.1))).map Prod.snd

/-- The normalisation applied to an ingredient before the lookup:
`strings.ToLower(strings.TrimSpace(ingredient))`. -/
def normalize (U : Char → Char) (ingredient : String) : String :=
  strings.ToLower U (strings.TrimSpace ingredient)

/-- One iteration of the loop of `SuggestHealthierSwaps`. -/
def swapStep (U : Char → Char) (swaps : GoMap String) (ingredient : String) : GoMap String :=
  match swapCase (normalize U ingredient) with
  | some suggestion => swaps.set ingredient suggestion
  | none => swaps

/-- `AIAgent.SuggestHealthierSwaps`: the map of swaps, and the (always nil) error. -/
def SuggestHealthierSwaps (U : Char → Char) (ingredients : List String) :
    GoMap String × Option String :=
  (ingredients.foldl (swapStep U) [], none)

end services



/-! ## More of package `strings`: searching, slicing, joining -/

namespace strings

/-- Go's `strings.Index(s, c)` for a one-character needle: the position of its first
occurrence, `-1` when there is none. -/
def Index (s : String) (c : Char) : Int :=
  if c ∈ s.data then (s.data.indexOf c : Nat) else -1

/-- Go's `strings.LastIndex(s, c)` for a one-character needle: the position of its last
occurrence, `-1` when there is none. -/
def LastIndex (s : String) (c : Char) : Int :=
  if c ∈ s.data then ((s.data.length - 1 - s.data.reverse.indexOf c : Nat) : Int) else -1

/-- The slice expression `s[lo:hi]`. -/
def slice (s : String) (lo hi : Int) : String :=
  ⟨(s.data.drop lo.toNat).take (hi.toNat - lo.toNat)⟩

/-- Go's `strings.Join(elems, sep)`. -/
def Join (elems : List String) (sep : String) : String :=
  String.intercalate sep elems

end strings

/-! ## `encoding/json`: `json.Unmarshal` into a `map[string][]string`

The decoder is a machine that reads the text one code point at a time, like the scanner of
`encoding/json`.  It accepts exactly the JSON texts that `json.Unmarshal` stores into a
`map[string][]string` without an error: the literal `null` (the map stays nil), or an object
whose values are `null` (a nil slice) or arrays whose elements are strings or `null` (the
empty string).  Every other text is rejected, whether Go would report a syntax error or an
`UnmarshalTypeError`; the wording of the diagnostic is not part of the model.  A key that
occurs twice keeps the value decoded last. -/

namespace json

/-- Where the decoder is inside a string literal. -/
inductive StrMode where
  /-- Between characters. -/
  | plain
  /-- Just after a backslash. -/
  | esc
  /-- Inside `\uXXXX`, after `n` hex digits of value `acc`. -/
  | hex (n : Nat) (acc : Nat)
deriving DecidableEq, Repr

/-- The control state of the decoder. -/
inductive Ctl where
  /-- Before the top-level value. -/
  | start
  /-- Inside a top-level `null`, `k` letters read. -/
  | topLit (k : Nat)
  /-- After the opening brace: a key or the closing brace. -/
  | objOpen
  /-- After a comma of the object: a key. -/
  | objNext
  /-- Inside a key. -/
  | inKey (mode : StrMode)
  /-- After a key: the colon. -/
  | afterKey
  /-- After the colon: a value. -/
  | beforeVal
  /-- Inside a `null` value, `k` letters read. -/
  | valLit (k : Nat)
  /-- After the opening bracket: an element or the closing bracket. -/
  | arrOpen
  /-- After a comma of the array: an element. -/
  | arrNext
  /-- Inside a string element. -/
  | inElem (mode : StrMode)
  /-- Inside a `null` element, `k` letters read. -/
  | elemLit (k : Nat)
  /-- After an element: a comma or the closing bracket. -/
  | afterElem
  /-- After a value: a comma or the closing brace. -/
  | afterVal
  /-- After the top-level value: only white space. -/
  | done
  /-- The text was rejected. -/
  | error
deriving DecidableEq, Repr

/-- The control states inside an object, after its opening brace and before its closing
brace. -/
def Ctl.inObject : Ctl → Bool
  | .start | .topLit _ | .done | .error => false
  | _ => true

/-- The decoder's state: control, the map built so far, the key and the array being filled,
the string being read, and a high surrogate of a `\u` escape waiting for its partner. -/
structure St where
  ctl : Ctl
  m : GoMap (List String)
  key : String
  arr : List String
  buf : List Char
  hi : Option Nat
deriving DecidableEq, Repr

/-- JSON white space: space, tab, line feed, carriage return. -/
def isWs (c : Char) : Bool :=
  c == ' ' || c == '\t' || c == '\n' || c == '\r'

/-- The value of a hexadecimal digit. -/
def hexVal (c : Char) : Option Nat :=
  let n := c.toNat
  if 48 ≤ n ∧ n ≤ 57 then some (n - 48)
  else if 97 ≤ n ∧ n ≤ 102 then some (n - 87)
  else if 65 ≤ n ∧ n ≤ 70 then some (n - 55)
  else none

/-- The characters written as a one-letter escape. -/
def escChar (c : Char) : Option Char :=
  if c = '"' then some '"'
  else if c = '\\' then some '\\'
  else if c = '/' then some '/'
  else if c = 'b' then some (Char.ofNat 8)
  else if c = 'f' then some (Char.ofNat 12)
  else if c = 'n' then some '\n'
  else if c = 'r' then some '\r'
  else if c = 't' then some '\t'
  else none

/-- The replacement character U+FFFD. -/
def replacement : Char := Char.ofNat 0xFFFD

/-- The buffer once a waiting high surrogate has found no partner: it becomes U+FFFD. -/
def flush (buf : List Char) (hi : Option Nat) : List Char :=
  match hi with
  | some _ => buf ++ [replacement]
  | none => buf

/-- A completed `\uXXXX` of value `rr`: a low surrogate after a waiting high surrogate
yields the combined code point; otherwise a waiting high surrogate becomes U+FFFD, and `rr`
itself is appended, kept waiting when it is a high surrogate, or replaced by U+FFFD when it
is a low surrogate on its own. -/
def unicodeEscape (buf : List Char) (hi : Option Nat) (rr : Nat) : List Char × Option Nat :=
  let isLow := 0xDC00 ≤ rr ∧ rr ≤ 0xDFFF
  let isHigh := 0xD800 ≤ rr ∧ rr ≤ 0xDBFF
  match hi with
  | some h =>
    if isLow then (buf ++ [Char.ofNat (0x10000 + (h - 0xD800) * 0x400 + (rr - 0xDC00))], none)
    else if isHigh then (buf ++ [replacement], some rr)
    else (buf ++ [replacement, Char.ofNat rr], none)
  | none =>
    if isLow then (buf ++ [replacement], none)
    else if isHigh then (buf, some rr)
    else (buf ++ [Char.ofNat rr], none)

/-- What one character does inside a string literal. -/
inductive StrStep where
  /-- The closing quote: the string is complete. -/
  | finished (s : String)
  /-- The string goes on. -/
  | more (mode : StrMode) (buf : List Char) (hi : Option Nat)
  /-- The character is not allowed here. -/
  | bad

/-- One character inside a string literal. -/
def strStep (mode : StrMode) (buf : List Char) (hi : Option Nat) (c : Char) : StrStep :=
  match mode with
  | .plain =>
    if c = '"' then .finished ⟨flush buf hi⟩
    else if c = '\\' then .more .esc buf hi
    else if c.toNat < 0x20 then .bad
    else .more .plain (flush buf hi ++ [c]) none
  | .esc =>
    if c = 'u' then .more (.hex 0 0) buf hi
    else
      match escChar c with
      | some e => .more .plain (flush buf hi ++ [e]) none
      | none => .bad
  | .hex n acc =>
    match hexVal c with
    | none => .bad
    | some d =>
      if n = 3 then
        let r := unicodeEscape buf hi (acc * 16 + d)
        .more .plain r.1 r.2
      else .more (.hex (n + 1) (acc * 16 + d)) buf hi

/-- The letter of `null` expected after `k` letters. -/
def nullLetter (k : Nat) : Char :=
  if k = 1 then 'u' else 'l'

/-- One step of the decoder. -/
def step (s : St) (c : Char) : St :=
  match s.ctl with
  | .start =>
    if isWs c then s
    else if c = '\x7b' then { s with ctl := .objOpen }
    else if c = 'n' then { s with ctl := .topLit 1 }
    else { s with ctl := .error }
  | .topLit k =>
    if c = nullLetter k then
      if k = 3 then { s with ctl := .done } else { s with ctl := .topLit (k + 1) }
    else { s with ctl := .error }
  | .objOpen =>
    if isWs c then s
    else if c = '\x7d' then { s with ctl := .done }
    else if c = '"' then { s with ctl := .inKey .plain, buf := [], hi := none }
    else { s with ctl := .error }
  | .objNext =>
    if isWs c then s
    else if c = '"' then { s with ctl := .inKey .plain, buf := [], hi := none }
    else { s with ctl := .error }
  | .inKey mode =>
    match strStep mode s.buf s.hi c with
    | .finished k => { s with ctl := .afterKey, key := k, buf := [], hi := none }
    | .more mode2 buf2 hi2 => { s with ctl := .inKey mode2, buf := buf2, hi := hi2 }
    | .bad => { s with ctl := .error }
  | .afterKey =>
    if isWs c then s
    else if c = ':' then { s with ctl := .beforeVal }
    else { s with ctl := .error }
  | .beforeVal =>
    if isWs c then s
    else if c = '[' then { s with ctl := .arrOpen, arr := [] }
    else if c = 'n' then { s with ctl := .valLit 1 }
    else { s with ctl := .error }
  | .valLit k =>
    if c = nullLetter k then
      if k = 3 then { s with ctl := .afterVal, m := s.m.set s.key [] }
      else { s with ctl := .valLit (k + 1) }
    else { s with ctl := .error }
  | .arrOpen =>
    if isWs c then s
    else if c = ']' then { s with ctl := .afterVal, m := s.m.set s.key s.arr }
    else if c = '"' then { s with ctl := .inElem .plain, buf := [], hi := none }
    else if c = 'n' then { s with ctl := .elemLit 1 }
    else { s with ctl := .error }
  | .arrNext =>
    if isWs c then s
    else if c = '"' then { s with ctl := .inElem .plain, buf := [], hi := none }
    else if c = 'n' then { s with ctl := .elemLit 1 }
    else { s with ctl := .error }
  | .inElem mode =>
    match strStep mode s.buf s.hi c with
    | .finished e => { s with ctl := .afterElem, arr := s.arr ++ [e], buf := [], hi := none }
    | .more mode2 buf2 hi2 => { s with ctl := .inElem mode2, buf := buf2, hi := hi2 }
    | .bad => { s with ctl := .error }
  | .elemLit k =>
    if c = nullLetter k then
      if k = 3 then { s with ctl := .afterElem, arr := s.arr ++ [""] }
      else { s with ctl := .elemLit (k + 1) }
    else { s with ctl := .error }
  | .afterElem =>
    if isWs c then s
    else if c = ',' then { s with ctl := .arrNext }
    else if c = ']' then { s with ctl := .afterVal, m := s.m.set s.key s.arr }
    else { s with ctl := .error }
  | .afterVal =>
    if isWs c then s
    else if c = ',' then { s with ctl := .objNext }
    else if c = '\x7d' then { s with ctl := .done }
    else { s with ctl := .error }
  | .done =>
    if isWs c then s else { s with ctl := .error }
  | .error => s

/-- The decoder before the first character. -/
def initial : St :=
  { ctl := .start, m := [], key := "", arr := [], buf := [], hi := none }

/-- The state of the decoder after reading a whole text. -/
def run (cs : List Char) : St :=
  cs.foldl step initial

/-- Go's `json.Unmarshal([]byte(text), &groceryList)` for `groceryList` a nil
`map[string][]string`: the decoded map, or `none` when `Unmarshal` returns an error. -/
def Unmarshal (text : String) : Option (GoMap (List String)) :=
  let s := run text.data
  if s.ctl = .done then some s.m else none

end json

/-! ## The world outside the program

The orchestrator reads an environment variable, talks to the Gemini client library and prints
to standard output.  Everything it gets from outside is a field of `World`; everything it
does to the outside is recorded, in order, as a list of `Event`s. -/

namespace genai

/-- A `genai.Part`: the program only distinguishes `genai.Text` from the other kinds. -/
inductive Part where
  | Text (text : String)
  | Blob (mimeType : String)
  | FunctionCall (name : String)
deriving DecidableEq, Repr

/-- A `genai.Content`. -/
structure Content where
  Parts : List Part
deriving DecidableEq, Repr

/-- A `genai.Candidate`.  Its field `Content` is a pointer (`*genai.Content`), nil when the
model returned a candidate without content (for instance one it stopped for safety). -/
structure Candidate where
  Content : Option Content
deriving DecidableEq, Repr

/-- A `genai.GenerateContentResponse`.  The client library returns a non-nil response whenever
it returns no error, and the candidates it lists are non-nil. -/
structure GenerateContentResponse where
  Candidates : List Candidate
deriving DecidableEq, Repr

end genai

/-- What a call of a Go function does: it returns, or it panics. -/
inductive Outcome (α : Type) where
  | returned (value : α)
  | panicked (reason : String)
deriving DecidableEq, Repr

/-- An argument of a `fmt.Printf` call. -/
inductive PrintArg where
  | str (s : String)
  | strs (l : List String)
  | swaps (m : GoMap String)
deriving DecidableEq, Repr

/-- The effects of the program on the outside world. -/
inductive Event where
  /-- A call `os.Getenv(name)`. -/
  | getenv (name : String)
  /-- A call `genai.NewClient(ctx, option.WithAPIKey(apiKey))`. -/
  | newClient (apiKey : String)
  /-- The deferred `client.Close()`. -/
  | closeClient
  /-- A call `model.GenerateContent(ctx, genai.Text(prompt))` on the named model. -/
  | generateContent (model : String) (prompt : String)
  /-- A call `fmt.Printf(format, arg)`. -/
  | printf (format : String) (arg : PrintArg)
  /-- A call `log.Printf(format, arg)`. -/
  | logPrintf (format : String) (arg : String)
deriving DecidableEq, Repr

/-- Everything the program obtains from outside. -/
structure World where
  /-- The process environment: `os.Getenv`, the empty string for an unset variable. -/
  getenv : String → String
  /-- The error of `genai.NewClient` for an API key, `none` when the client is created. -/
  newClient : String → Option String
  /-- The outcome of `GenerateContent` for a model name and a prompt: an error text or a
  response. -/
  generateContent : String → String → Except String genai.GenerateContentResponse
  /-- The diagnostic text of the error `json.Unmarshal` returns for a rejected text. -/
  jsonDiagnostic : String → String
  /-- The order in which a `range` loop visits the entries of a map: some permutation of
  them, not fixed by the language. -/
  rangeOrder : {V : Type} → (m : GoMap V) → { l : List (String × V) // l.Perm m }
  /-- The Unicode lower-case mapping of the code points beyond ASCII. -/
  unicodeLower : Char → Char

/-- A `json.Unmarshal` that reports its error as a text. -/
def World.unmarshal (w : World) (text : String) : Except String (GoMap (List String)) :=
  match json.Unmarshal text with
  | some m => .ok m
  | none => .error (w.jsonDiagnostic text)

/-! ## Package `services`: the orchestrator -/

namespace services

/-- `AIAgent.MergeIngredients`: every ingredient of every list is put into a set, and the
set is then listed in the order in which `range` visits it. -/
def MergeIngredients (w : World) (ingredientMap : IngredientMap) : List String :=
  let ingredientSet : GoMap Unit :=
    ((w.rangeOrder ingredientMap).val.map Prod.snd).flatten.foldl
      (fun set ingredient => set.set ingredient ()) []
  (w.rangeOrder ingredientSet).val.map Prod.fst

/-- A value stored in the result map (`interface{}`): the grocery list or the swaps. -/
inductive Iface where
  | groceryList (m : GoMap (List String))
  | swaps (m : GoMap String)
deriving DecidableEq, Repr

/-- The result of the orchestrator, a `map[string]interface{}`. -/
abbrev Result := GoMap Iface

/-- The text before the meals in the prompt. -/
def promptHead : String := "Given the following meals: "

/-- The text after the meals in the prompt. -/
def promptTail : String :=
  "\nGenerate a detailed grocery shopping list.\n" ++
  "Group items by categories like \"Vegetables\", \"Dairy\", \"Proteins\", etc.\n" ++
  "Respond ONLY with JSON like:\n\n" ++
  "\x7b\n" ++
  "  \"Vegetables\": [\"Tomatoes\", \"Onions\"],\n" ++
  "  \"Dairy\": [\"Cheese\", \"Milk\"],\n" ++
  "  \"Proteins\": [\"Chicken Breast\", \"Eggs\"],\n" ++
  "  ...\n" ++
  "\x7d\n\n" ++
  "Do NOT include any extra commentary, bullet points, or markdown formatting. " ++
  "Just pure JSON."

/-- The prompt built by `fmt.Sprintf` from the meals joined by ", ". -/
def buildPrompt (meals : List String) : String :=
  promptHead ++ strings.Join meals ", " ++ promptTail

/-- The cleaning of the response text (lines 230-238): trim the white space, then, when a
first opening brace is found before a last closing brace, keep the text from the one to the
other inclusive. -/
def cleanResponse (responseText : String) : String :=
  let cleanedText := strings.TrimSpace responseText
  let startIdx := strings.Index cleanedText '\x7b'
  let endIdx := strings.LastIndex cleanedText '\x7d'
  if startIdx ≥ 0 ∧ endIdx > startIdx then strings.slice cleanedText startIdx (endIdx + 1)
  else cleanedText

/-- The loop that flattens the grocery list: the ingredient lists of all categories,
appended in the order in which `range` visits the map. -/
def flattenIngredients (w : World) (groceryList : GoMap (List String)) : List String :=
  ((w.rangeOrder groceryList).val.map Prod.snd).flatten

/-- The error of an empty meal list. -/
def errNoMeals : String := "no meals provided"

/-- The error of a missing API key. -/
def errNoApiKey : String := "Gemini API key not found in environment variables"

/-- The error of a response without candidates or parts. -/
def errNoResponse : String := "no response generated from Gemini"

/-- The error of a first part that is not text. -/
def errUnexpectedFormat : String := "unexpected response format from Gemini"

/-- The error of a response text that does not parse. -/
def errParse (diagnostic cleanedText : String) : String :=
  "failed to parse JSON response: " ++ diagnostic ++ " (received: " ++ cleanedText ++ ")"

/-- The second half of `GenerateGroceryList` (lines 227-268): from the response text to the
result.  The events are those after the call of the model, the deferred `client.Close()`
included. -/
def processResponse (w : World) (responseText : String) :
    (Option Result × Option String) × List Event :=
  let e1 := Event.printf "Raw response from Gemini: %s\n" (.str responseText)
  let cleanedText := cleanResponse responseText
  match w.unmarshal cleanedText with
  | .error err => ((none, some (errParse err cleanedText)), [e1, .closeClient])
  | .ok groceryList =>
    let allIngredients := flattenIngredients w groceryList
    match SuggestHealthierSwaps w.unicodeLower allIngredients with
    | (_, some err) =>
      ((none, some ("failed to suggest healthier swaps: " ++ err)), [e1, .closeClient])
    | (healthierSwaps, none) =>
      ((some [("grocery_list", .groceryList groceryList),
              ("healthier_swaps", .swaps healthierSwaps)], none),
       [e1,
        .printf "Ingredients for healthier swaps: %v\n" (.strs allIngredients),
        .printf "Healthier swaps found: %v\n" (.swaps healthierSwaps),
        .closeClient])

/-- The function `GenerateGroceryList` of package `services`: what the call does (the
returned pair of result and error, or a panic) and the events it causes. -/
def GenerateGroceryList (w : World) (meals : List String) :
    Outcome (Option Result × Option String) × List Event :=
  if meals.length = 0 then (.returned (none, some errNoMeals), [])
  else
    let apiKey := w.getenv "GEMINI_API_KEY"
    let t1 := [Event.getenv "GEMINI_API_KEY"]
    if apiKey = "" then (.returned (none, some errNoApiKey), t1)
    else
      let t2 := t1 ++ [Event.newClient apiKey]
      match w.newClient apiKey with
      | some err => (.returned (none, some ("failed to initialize Gemini client: " ++ err)), t2)
      | none =>
        let prompt := buildPrompt meals
        let t3 := t2 ++ [Event.printf "Sending prompt to Gemini: %s\n" (.str prompt),
                         Event.generateContent "gemini-1.5-pro" prompt]
        match w.generateContent "gemini-1.5-pro" prompt with
        | .error err =>
          (.returned (none, some ("Gemini content generation failed: " ++ err)),
           t3 ++ [.closeClient])
        | .ok resp =>
          match resp.Candidates with
          | [] => (.returned (none, some errNoResponse), t3 ++ [.closeClient])
          | candidate :: _ =>
            match candidate.Content with
            | none =>
              (.panicked "runtime error: invalid memory address or nil pointer dereference",
               t3 ++ [.closeClient])
            | some content =>
              match content.Parts with
              | [] => (.returned (none, some errNoResponse), t3 ++ [.closeClient])
              | .Text responseText :: _ =>
                let r := processResponse w responseText
                (.returned r.1, t3 ++ r.2)
              | _ :: _ => (.returned (none, some errUnexpectedFormat), t3 ++ [.closeClient])

/-- The call reaches the model and the model answers with `text`: the meal list is not
empty, the API key is set, the client is created, and the first part of the first candidate
of the response to the prompt is the text `text`. -/
def ModelAnswers (w : World) (meals : List String) (text : String) : Prop :=
  meals ≠ [] ∧ w.getenv "GEMINI_API_KEY" ≠ "" ∧
  w.newClient (w.getenv "GEMINI_API_KEY") = none ∧
  ∃ parts rest, w.generateContent "gemini-1.5-pro" (buildPrompt meals) =
    .ok ⟨⟨some ⟨.Text text :: parts⟩⟩ :: rest⟩

end services

/-- A response with one candidate holding one text part. -/
def genai.textReply (text : String) : genai.GenerateContentResponse :=
  ⟨[⟨some ⟨[.Text text]⟩⟩]⟩

/-- A concrete world: the API key is `apiKey`, the client is always created, the model gives
the same answer to every prompt, `range` visits a map in the order it is stored, and code
points beyond ASCII have no lower-case form. -/
def World.fixed (apiKey : String) (answer : Except String genai.GenerateContentResponse) :
    World where
  getenv := fun name => if name = "GEMINI_API_KEY" then apiKey else ""
  newClient := fun _ => none
  generateContent := fun _ _ => answer
  jsonDiagnostic := fun _ => "invalid JSON"
  rangeOrder := fun m => ⟨m, List.Perm.refl m⟩
  unicodeLower := fun c => c

/-! ## Package `handlers`: the HTTP handler -/

namespace handlers

/-- A value of a `fiber.Map` the handler sends: a text, or the map returned by the
orchestrator (nil when it returned none). -/
inductive BodyValue where
  | text (s : String)
  | result (r : Option services.Result)
deriving DecidableEq, Repr

/-- The HTTP response: the status code and the `fiber.Map` encoded as the JSON body. -/
structure Response where
  status : Nat
  body : GoMap BodyValue
deriving DecidableEq, Repr

/-- The handler `GenerateGroceryList` of package `handlers`.  `parsed` is what
`c.BodyParser(&request)` yields: an error, or the decoded field `meals` (empty when the body
has no such field). -/
def GenerateGroceryList (w : World) (parsed : Except String (List String)) :
    Outcome Response × List Event :=
  match parsed with
  | .error _ =>
    (.returned { status := 400, body := [("error", .text "Invalid request body")] }, [])
  | .ok meals =>
    match services.GenerateGroceryList w meals with
    | (.panicked reason, trace) => (.panicked reason, trace)
    | (.returned (_, some err), trace) =>
      (.returned { status := 500, body := [("error", .text err)] },
       trace ++ [.logPrintf "Error generating grocery list: %v" err])
    | (.returned (groceryList, none), trace) =>
      (.returned { status := 200, body := [("grocery_list", .result groceryList)] }, trace)

end handlers
/-! ## Lemmas on Go maps -/

namespace GoMap

variable {V : Type}

theorem lookup_set (m : GoMap V) (k k' : String) (v : V) :
    (m.set k v).lookup k' = if k = k' then some v else m.lookup k' := by
  induction m with
  | nil => simp [set, lookup]
  | cons e rest ih =>
    obtain ⟨k0, v0⟩ := e
    by_cases h0 : k0 = k
    · subst h0
      by_cases h1 : k0 = k' <;> simp [set, lookup, h1]
    · by_cases h2 : k0 = k'
      · subst h2
        have h1 : ¬ k = k0 := fun h => h0 h.symm
        simp [set, lookup, h0, h1]
      · simp [set, lookup, h0, h2, ih]

theorem mem_keys_iff (m : GoMap V) (k : String) :
    k ∈ m.keys ↔ ∃ v, m.lookup k = some v := by
  induction m with
  | nil => simp [keys, lookup]
  | cons e rest ih =>
    obtain ⟨k0, v0⟩ := e
    by_cases h0 : k0 = k
    · subst h0
      simp [keys, lookup]
    · have h0' : ¬ k = k0 := fun h => h0 h.symm
      have ih' : k ∈ List.map Prod.fst rest ↔ ∃ v, lookup rest k = some v := ih
      simp only [keys, List.map_cons, List.mem_cons, lookup, h0, h0', if_false, false_or]
      exact ih'

theorem keys_set_nodup (m : GoMap V) (k : String) (v : V) (h : m.keys.Nodup) :
    (m.set k v).keys.Nodup := by
  induction m with
  | nil => simp [set, keys]
  | cons e rest ih =>
    obtain ⟨k0, v0⟩ := e
    have hk : k0 ∉ keys rest ∧ (keys rest).Nodup := by simpa [keys] using h
    by_cases h0 : k0 = k
    · subst h0
      simpa [set, keys] using h
    · have hmem : k0 ∉ (set rest k v).keys := by
        rw [mem_keys_iff]
        rintro ⟨w, hw⟩
        rw [lookup_set] at hw
        have h0' : ¬ k = k0 := fun h => h0 h.symm
        simp only [h0', if_false] at hw
        exact hk.1 ((mem_keys_iff rest k0).2 ⟨w, hw⟩)
      have := ih hk.2
      simp only [set, h0, if_false, keys, List.map_cons, List.nodup_cons]
      exact ⟨hmem, this⟩

end GoMap

namespace services

theorem swapCase_eq_table (n : String) : swapCase n = tableSuggestion n := by
  unfold swapCase
  split <;> first
    | rfl
    | simp_all [tableSuggestion, swapTable, List.find?]

end services

namespace services

theorem foldl_swapStep_lookup (U : Char → Char) (ings : List String) (m : GoMap String)
    (s : String) :
    (ings.foldl (swapStep U) m).lookup s =
      if s ∈ ings ∧ swapCase (normalize U s) ≠ none then swapCase (normalize U s)
      else m.lookup s := by
  induction ings generalizing m with
  | nil => simp
  | cons x rest ih =>
    rw [List.foldl_cons, ih]
    by_cases hs : s ∈ rest ∧ swapCase (normalize U s) ≠ none
    · have hs' : s ∈ x :: rest ∧ swapCase (normalize U s) ≠ none :=
        ⟨List.mem_cons_of_mem _ hs.1, hs.2⟩
      rw [if_pos hs, if_pos hs']
    · rw [if_neg hs]
      by_cases hx : x = s
      · subst hx
        cases hc : swapCase (normalize U x) with
        | none => simp [swapStep, hc]
        | some v => simp [swapStep, hc, GoMap.lookup_set]
      · have hs' : ¬ (s ∈ x :: rest ∧ swapCase (normalize U s) ≠ none) := by
          rintro ⟨h1, h2⟩
          rcases List.mem_cons.1 h1 with h | h
          · exact hx h.symm
          · exact hs ⟨h, h2⟩
        rw [if_neg hs']
        cases hc : swapCase (normalize U x) with
        | none => simp [swapStep, hc]
        | some v => simp [swapStep, hc, GoMap.lookup_set, hx]

theorem foldl_swapStep_nodup (U : Char → Char) (ings : List String) (m : GoMap String)
    (h : m.keys.Nodup) : (ings.foldl (swapStep U) m).keys.Nodup := by
  induction ings generalizing m with
  | nil => simpa using h
  | cons x rest ih =>
    rw [List.foldl_cons]
    apply ih
    unfold swapStep
    cases swapCase (normalize U x) with
    | none => exact h
    | some v => exact GoMap.keys_set_nodup m x v h

theorem tableSuggestion_ne_none_iff (n : String) :
    tableSuggestion n ≠ none ↔ n ∈ aliases := by
  unfold tableSuggestion aliases
  rw [Ne, Option.map_eq_none', List.find?_eq_none]
  simp only [List.mem_flatten, List.mem_map]
  constructor
  · intro h
    push_neg at h
    obtain ⟨row, hrow, hn⟩ := h
    exact ⟨row.1, ⟨row, hrow, rfl⟩, by simpa using hn⟩
  · rintro ⟨l, ⟨row, hrow, rfl⟩, hn⟩ hall
    exact hall row hrow (by simpa using hn)

set_option maxRecDepth 100000 in
theorem tableSuggestion_of_row :
    ∀ row ∈ swapTable, ∀ n ∈ row.1, tableSuggestion n = some row.2 := by
  decide

theorem lookup_swaps (U : Char → Char) (ings : List String) (s : String) :
    (SuggestHealthierSwaps U ings).1.lookup s =
      if s ∈ ings then tableSuggestion (normalize U s) else none := by
  unfold SuggestHealthierSwaps
  simp only
  rw [foldl_swapStep_lookup, swapCase_eq_table]
  by_cases h1 : s ∈ ings
  · cases h2 : tableSuggestion (normalize U s) <;> simp [h1, GoMap.lookup]
  · simp [h1, GoMap.lookup]

end services

namespace strings

theorem dropWhile_isSpace_append (p r : List Char) (c : Char) (hc : isSpace c = false) :
    (p ++ c :: r).dropWhile isSpace = p.dropWhile isSpace ++ c :: r := by
  induction p with
  | nil => simp [List.dropWhile, hc]
  | cons x rest ih =>
    by_cases hx : isSpace x = true
    · simp [List.dropWhile, hx, ih]
    · simp [List.dropWhile, hx]

theorem trimRight_cons_of_not_space (c : Char) (s : List Char) (hc : isSpace c = false) :
    trimRight (c :: s) = c :: trimRight s := by
  cases h : trimRight s with
  | nil => simp [trimRight, h, hc]
  | cons y ys => simp [trimRight, h]

theorem trimRight_append (l s : List Char) (c : Char) (hc : isSpace c = false) :
    trimRight (l ++ c :: s) = l ++ c :: trimRight s := by
  induction l with
  | nil => simpa using trimRight_cons_of_not_space c s hc
  | cons x rest ih =>
    have h : trimRight (x :: (rest ++ c :: s)) = x :: trimRight (rest ++ c :: s) := by
      cases ht : trimRight (rest ++ c :: s) with
      | nil =>
        rw [ih] at ht
        cases rest <;> simp at ht
      | cons y ys => simp [trimRight, ht]
    rw [List.cons_append, h, ih, List.cons_append]

theorem mem_of_mem_trimRight (s : List Char) (c : Char) (h : c ∈ trimRight s) : c ∈ s := by
  induction s with
  | nil => simp [trimRight] at h
  | cons x rest ih =>
    cases ht : trimRight rest with
    | nil =>
      by_cases hx : isSpace x = true
      · simp [trimRight, ht, hx] at h
      · simp [trimRight, ht, hx] at h
        simp [h]
    | cons y ys =>
      simp only [trimRight, ht] at h
      rw [ht] at ih
      rcases List.mem_cons.1 h with h | h
      · simp [h]
      · exact List.mem_cons_of_mem _ (ih h)

theorem mem_of_mem_dropWhile (p : Char → Bool) (s : List Char) (c : Char)
    (h : c ∈ s.dropWhile p) : c ∈ s :=
  (List.dropWhile_sublist p).subset h

theorem indexOf_append_cons (l r : List Char) (c : Char) (h : c ∉ l) :
    (l ++ c :: r).indexOf c = l.length := by
  induction l with
  | nil => simp [List.indexOf_cons]
  | cons x rest ih =>
    have hx : ¬ x = c := fun e => h (by simp [e])
    have hr : c ∉ rest := fun e => h (List.mem_cons_of_mem _ e)
    simp [List.indexOf_cons, hx, ih hr]


theorem trimSpace_parts (p mid s : List Char) :
    TrimSpace ⟨p ++ ('\x7b' :: mid ++ ['\x7d']) ++ s⟩ =
      ⟨p.dropWhile isSpace ++ '\x7b' :: (mid ++ '\x7d' :: trimRight s)⟩ := by
  unfold TrimSpace
  congr 1
  have e1 : p ++ ('\x7b' :: mid ++ ['\x7d']) ++ s = p ++ '\x7b' :: (mid ++ '\x7d' :: s) := by
    simp
  rw [e1, dropWhile_isSpace_append p _ '\x7b' (by decide)]
  have e2 : p.dropWhile isSpace ++ '\x7b' :: (mid ++ '\x7d' :: s) =
      (p.dropWhile isSpace ++ '\x7b' :: mid) ++ '\x7d' :: s := by simp
  rw [e2, trimRight_append _ s '\x7d' (by decide)]
  simp

theorem index_parts (p2 mid s2 : List Char) (hp : '\x7b' ∉ p2) :
    Index ⟨p2 ++ '\x7b' :: (mid ++ '\x7d' :: s2)⟩ '\x7b' = (p2.length : Int) := by
  unfold Index
  rw [if_pos (by simp), indexOf_append_cons _ _ _ hp]

theorem lastIndex_parts (p2 mid s2 : List Char) (hs : '\x7d' ∉ s2) :
    LastIndex ⟨p2 ++ '\x7b' :: (mid ++ '\x7d' :: s2)⟩ '\x7d' =
      ((p2.length + mid.length + 1 : Nat) : Int) := by
  unfold LastIndex
  rw [if_pos (by simp)]
  have e : (p2 ++ '\x7b' :: (mid ++ '\x7d' :: s2)).reverse =
      s2.reverse ++ '\x7d' :: (mid.reverse ++ '\x7b' :: p2.reverse) := by simp
  show ((((p2 ++ '\x7b' :: (mid ++ '\x7d' :: s2)).length - 1 -
    (p2 ++ '\x7b' :: (mid ++ '\x7d' :: s2)).reverse.indexOf '\x7d' : Nat)) : Int) = _
  rw [e, indexOf_append_cons _ _ _ (by simpa using hs)]
  congr 1
  simp
  omega

end strings

namespace services

theorem cleanResponse_parts (p mid s : List Char) (hp : '\x7b' ∉ p) (hs : '\x7d' ∉ s) :
    cleanResponse ⟨p ++ ('\x7b' :: mid ++ ['\x7d']) ++ s⟩ = ⟨'\x7b' :: mid ++ ['\x7d']⟩ := by
  have hp2 : '\x7b' ∉ p.dropWhile strings.isSpace :=
    fun h => hp (strings.mem_of_mem_dropWhile _ _ _ h)
  have hs2 : '\x7d' ∉ strings.trimRight s :=
    fun h => hs (strings.mem_of_mem_trimRight _ _ h)
  unfold cleanResponse
  simp only [strings.trimSpace_parts, strings.index_parts _ _ _ hp2,
    strings.lastIndex_parts _ _ _ hs2]
  rw [if_pos (by constructor <;> omega)]
  unfold strings.slice
  congr 1
  have e : ((((p.dropWhile strings.isSpace).length + mid.length + 1 : Nat) : Int) + 1).toNat -
      (((p.dropWhile strings.isSpace).length : Nat) : Int).toNat = mid.length + 2 := by
    omega
  rw [e]
  simp only [Int.toNat_ofNat]
  rw [List.drop_left]
  have e3 : '\x7b' :: (mid ++ '\x7d' :: strings.trimRight s) =
      ('\x7b' :: mid ++ ['\x7d']) ++ strings.trimRight s := by
    simp
  rw [e3]
  have e4 : mid.length + 2 = ('\x7b' :: mid ++ ['\x7d']).length := by simp
  rw [e4, List.take_left]

theorem split_braced (b : List Char) (h1 : b.head? = some '\x7b')
    (h2 : b.getLast? = some '\x7d') : ∃ mid, b = '\x7b' :: mid ++ ['\x7d'] := by
  cases b with
  | nil => simp at h1
  | cons x rest =>
    simp only [List.head?_cons, Option.some.injEq] at h1
    subst h1
    rcases List.eq_nil_or_concat rest with h | ⟨mid, y, h⟩
    · subst h
      simp at h2
    · subst h
      rw [List.concat_eq_append, ← List.cons_append, List.getLast?_append] at h2
      simp only [List.getLast?_singleton, Option.or, Option.some.injEq] at h2
      subst h2
      exact ⟨mid, by simp⟩

end services

namespace json


theorem run_error (cs : List Char) (s : St) (h : s.ctl = .error) :
    (cs.foldl step s).ctl = .error := by
  induction cs generalizing s with
  | nil => simpa using h
  | cons c r ih =>
    rw [List.foldl_cons]
    apply ih
    simp [step, h]

theorem step_inObject (s : St) (c : Char) (h : s.ctl.inObject = true) :
    (step s c).ctl = .error ∨ (step s c).ctl.inObject = true ∨
      ((step s c).ctl = .done ∧ c = '\x7d') := by
  unfold step
  cases hc : s.ctl with
  | start => simp [hc, Ctl.inObject] at h
  | topLit k => simp [hc, Ctl.inObject] at h
  | done => simp [hc, Ctl.inObject] at h
  | error => simp [hc, Ctl.inObject] at h
  | inKey mode =>
    simp only
    cases strStep mode s.buf s.hi c <;> simp [Ctl.inObject]
  | inElem mode =>
    simp only
    cases strStep mode s.buf s.hi c <;> simp [Ctl.inObject]
  | objOpen => simp only; split_ifs <;> simp_all [Ctl.inObject]
  | objNext => simp only; split_ifs <;> simp_all [Ctl.inObject]
  | afterKey => simp only; split_ifs <;> simp_all [Ctl.inObject]
  | beforeVal => simp only; split_ifs <;> simp_all [Ctl.inObject]
  | valLit k => simp only; split_ifs <;> simp_all [Ctl.inObject]
  | arrOpen => simp only; split_ifs <;> simp_all [Ctl.inObject]
  | arrNext => simp only; split_ifs <;> simp_all [Ctl.inObject]
  | elemLit k => simp only; split_ifs <;> simp_all [Ctl.inObject]
  | afterElem => simp only; split_ifs <;> simp_all [Ctl.inObject]
  | afterVal => simp only; split_ifs <;> simp_all [Ctl.inObject]

theorem run_inObject (cs : List Char) (s : St) (h : s.ctl.inObject = true)
    (hd : (cs.foldl step s).ctl = .done) : '\x7d' ∈ cs := by
  induction cs generalizing s with
  | nil =>
    simp only [List.foldl_nil] at hd
    rw [hd] at h
    exact absurd h (by simp [Ctl.inObject])
  | cons c r ih =>
    rw [List.foldl_cons] at hd
    rcases step_inObject s c h with he | ho | ⟨-, hc⟩
    · rw [run_error r _ he] at hd
      exact absurd hd (by decide)
    · exact List.mem_cons_of_mem _ (ih _ ho hd)
    · simp [hc]

theorem run_done (cs : List Char) (s : St) (h : s.ctl = .done)
    (hd : (cs.foldl step s).ctl = .done) : ∀ c ∈ cs, isWs c = true := by
  induction cs generalizing s with
  | nil => simp
  | cons c r ih =>
    rw [List.foldl_cons] at hd
    by_cases hw : isWs c = true
    · have hs : step s c = s := by simp [step, h, hw]
      rw [hs] at hd
      intro x hx
      rcases List.mem_cons.1 hx with e | e
      · rw [e]; exact hw
      · exact ih s h hd x e
    · have hs : (step s c).ctl = .error := by simp [step, h, hw]
      rw [run_error r _ hs] at hd
      exact absurd hd (by decide)

theorem run_topLit3 (cs : List Char) (s : St) (h : s.ctl = .topLit 3)
    (hd : (cs.foldl step s).ctl = .done) :
    ∃ ws, cs = 'l' :: ws ∧ ∀ c ∈ ws, isWs c = true := by
  cases cs with
  | nil =>
    simp only [List.foldl_nil] at hd
    rw [h] at hd
    exact absurd hd (by decide)
  | cons c r =>
    rw [List.foldl_cons] at hd
    by_cases hc : c = 'l'
    · have hs : (step s c).ctl = .done := by simp [step, h, hc, nullLetter]
      exact ⟨r, by rw [hc], run_done r _ hs hd⟩
    · have hs : (step s c).ctl = .error := by simp [step, h, hc, nullLetter]
      rw [run_error r _ hs] at hd
      exact absurd hd (by decide)

theorem run_topLit2 (cs : List Char) (s : St) (h : s.ctl = .topLit 2)
    (hd : (cs.foldl step s).ctl = .done) :
    ∃ ws, cs = 'l' :: 'l' :: ws ∧ ∀ c ∈ ws, isWs c = true := by
  cases cs with
  | nil =>
    simp only [List.foldl_nil] at hd
    rw [h] at hd
    exact absurd hd (by decide)
  | cons c r =>
    rw [List.foldl_cons] at hd
    by_cases hc : c = 'l'
    · have hs : (step s c).ctl = .topLit 3 := by simp [step, h, hc, nullLetter]
      obtain ⟨ws, e, hws⟩ := run_topLit3 r _ hs hd
      exact ⟨ws, by rw [hc, e], hws⟩
    · have hs : (step s c).ctl = .error := by simp [step, h, hc, nullLetter]
      rw [run_error r _ hs] at hd
      exact absurd hd (by decide)

theorem run_topLit1 (cs : List Char) (s : St) (h : s.ctl = .topLit 1)
    (hd : (cs.foldl step s).ctl = .done) :
    ∃ ws, cs = 'u' :: 'l' :: 'l' :: ws ∧ ∀ c ∈ ws, isWs c = true := by
  cases cs with
  | nil =>
    simp only [List.foldl_nil] at hd
    rw [h] at hd
    exact absurd hd (by decide)
  | cons c r =>
    rw [List.foldl_cons] at hd
    by_cases hc : c = 'u'
    · have hs : (step s c).ctl = .topLit 2 := by simp [step, h, hc, nullLetter]
      obtain ⟨ws, e, hws⟩ := run_topLit2 r _ hs hd
      exact ⟨ws, by rw [hc, e], hws⟩
    · have hs : (step s c).ctl = .error := by simp [step, h, hc, nullLetter]
      rw [run_error r _ hs] at hd
      exact absurd hd (by decide)

end json

namespace strings

theorem trimRight_getLast_not_space (l : List Char) (c : Char)
    (h : (trimRight l).getLast? = some c) : isSpace c = false := by
  induction l with
  | nil => simp [trimRight] at h
  | cons x rest ih =>
    cases ht : trimRight rest with
    | nil =>
      by_cases hx : isSpace x = true
      · simp [trimRight, ht, hx] at h
      · simp [trimRight, ht, hx] at h
        rw [← h]
        simpa using hx
    | cons y ys =>
      rw [ht] at ih
      simp only [trimRight, ht] at h
      rw [List.getLast?_cons_cons] at h
      exact ih h

theorem trimRight_head (l : List Char) (c : Char) (r : List Char)
    (h : trimRight l = c :: r) : l.head? = some c := by
  cases l with
  | nil => simp [trimRight] at h
  | cons x rest =>
    cases ht : trimRight rest with
    | nil =>
      by_cases hx : isSpace x = true
      · simp [trimRight, ht, hx] at h
      · simp [trimRight, ht, hx] at h
        simp [h.1]
    | cons y ys =>
      simp only [trimRight, ht] at h
      simp only [List.cons.injEq] at h
      simp [h.1]

theorem trimSpace_head_not_space (raw : String) (c : Char) (r : List Char)
    (h : (TrimSpace raw).data = c :: r) : isSpace c = false := by
  unfold TrimSpace at h
  have h1 := trimRight_head _ c r h
  have h2 := List.head?_dropWhile_not isSpace raw.data
  rw [h1] at h2
  simpa using h2

theorem trimSpace_last_not_space (raw : String) (c : Char)
    (h : (TrimSpace raw).data.getLast? = some c) : isSpace c = false :=
  trimRight_getLast_not_space _ c h

theorem index_head (r : List Char) (c : Char) : Index ⟨c :: r⟩ c = 0 := by
  simp [Index, List.indexOf_cons]

theorem lastIndex_pos (r : List Char) (c d : Char) (h : d ∈ r) :
    LastIndex ⟨c :: r⟩ d > 0 := by
  unfold LastIndex
  rw [if_pos (List.mem_cons_of_mem _ h)]
  have h1 : (c :: r).reverse.indexOf d = r.reverse.indexOf d := by
    rw [List.reverse_cons]
    exact List.indexOf_append_of_mem (by simpa using h)
  have h2 : r.reverse.indexOf d < r.reverse.length :=
    List.indexOf_lt_length.2 (by simpa using h)
  show (0 : Int) < (((c :: r).length - 1 - (c :: r).reverse.indexOf d : Nat) : Int)
  rw [h1]
  simp only [List.length_cons, List.length_reverse] at h2 ⊢
  omega

end strings

namespace json

theorem isSpace_of_isWs (c : Char) (h : isWs c = true) : strings.isSpace c = true := by
  simp only [isWs, Bool.or_eq_true, beq_iff_eq] at h
  rcases h with ((h | h) | h) | h <;> subst h <;> decide

/-- A text without white space at either end that `Unmarshal` accepts is the literal `null`
or begins with an opening brace and has a closing brace further on. -/
theorem unmarshal_trimSpace (raw : String) (m : GoMap (List String))
    (h : Unmarshal (strings.TrimSpace raw) = some m) :
    strings.TrimSpace raw = "null" ∨
    (strings.Index (strings.TrimSpace raw) '\x7b' = 0 ∧
      strings.LastIndex (strings.TrimSpace raw) '\x7d' > 0) := by
  have hd : (run (strings.TrimSpace raw).data).ctl = .done := by
    unfold Unmarshal at h
    by_contra hne
    simp [hne] at h
  have hhead := strings.trimSpace_head_not_space raw
  have hlast := strings.trimSpace_last_not_space raw
  have eta : strings.TrimSpace raw = ⟨(strings.TrimSpace raw).data⟩ := rfl
  rw [eta]
  generalize (strings.TrimSpace raw).data = cs at hd hhead hlast
  cases cs with
  | nil => exact absurd hd (by decide)
  | cons c r =>
    have hc : strings.isSpace c = false := hhead c r rfl
    have hw : isWs c = false := by
      by_contra hw
      have := isSpace_of_isWs c (by simpa using hw)
      rw [hc] at this
      exact absurd this (by decide)
    unfold run at hd
    rw [List.foldl_cons] at hd
    by_cases hb : c = '\x7b'
    · subst hb
      right
      have hs : (step initial '\x7b').ctl.inObject = true := by decide
      exact ⟨strings.index_head r _, strings.lastIndex_pos r _ _ (run_inObject r _ hs hd)⟩
    · by_cases hn : c = 'n'
      · subst hn
        left
        have hs : (step initial 'n').ctl = .topLit 1 := by decide
        obtain ⟨ws, e, hws⟩ := run_topLit1 r _ hs hd
        subst e
        rcases List.eq_nil_or_concat ws with e | ⟨ws2, y, e⟩
        · subst e
          rfl
        · subst e
          have hy : isWs y = true := hws y (by simp)
          have := hlast y (by
            rw [List.concat_eq_append,
              show 'n' :: 'u' :: 'l' :: 'l' :: (ws2 ++ [y]) =
                ('n' :: 'u' :: 'l' :: 'l' :: ws2) ++ [y] from by simp,
              List.getLast?_append]
            simp)
          rw [isSpace_of_isWs y hy] at this
          exact absurd this (by decide)
      · have hs : (step initial c).ctl = .error := by
          simp [step, initial, hw, hb, hn]
        rw [run_error r _ hs] at hd
        exact absurd hd (by decide)

end json

namespace strings

theorem trimRight_decomp (l : List Char) :
    ∃ post, l = trimRight l ++ post ∧ ∀ c ∈ post, isSpace c = true := by
  induction l with
  | nil => exact ⟨[], by simp [trimRight]⟩
  | cons x rest ih =>
    obtain ⟨post, e, hpost⟩ := ih
    cases ht : trimRight rest with
    | nil =>
      rw [ht] at e
      by_cases hx : isSpace x = true
      · refine ⟨x :: rest, by simp [trimRight, ht, hx], ?_⟩
        intro c hc
        rcases List.mem_cons.1 hc with h | h
        · rw [h]; exact hx
        · rw [e] at h
          exact hpost c (by simpa using h)
      · refine ⟨rest, by simp [trimRight, ht, hx], ?_⟩
        intro c hc
        rw [e] at hc
        exact hpost c (by simpa using hc)
    | cons y ys =>
      refine ⟨post, ?_, hpost⟩
      simp only [trimRight, ht]
      rw [ht] at e
      rw [List.cons_append, ← e]

theorem trimSpace_decomp (raw : String) :
    ∃ pre post, raw.data = pre ++ (TrimSpace raw).data ++ post ∧
      (∀ c ∈ pre, isSpace c = true) ∧ (∀ c ∈ post, isSpace c = true) := by
  obtain ⟨post, e, hpost⟩ := trimRight_decomp (raw.data.dropWhile isSpace)
  refine ⟨raw.data.takeWhile isSpace, post, ?_, ?_, hpost⟩
  · unfold TrimSpace
    simp only
    rw [List.append_assoc, ← e, List.takeWhile_append_dropWhile]
  · intro c hc
    exact List.mem_takeWhile_imp hc

theorem index_sandwich (pre x post : List Char) (c : Char) (hc : isSpace c = false)
    (hpre : ∀ d ∈ pre, isSpace d = true) (hpost : ∀ d ∈ post, isSpace d = true)
    (hx : c ∈ x) :
    Index ⟨pre ++ x ++ post⟩ c = (pre.length : Int) + Index ⟨x⟩ c ∧
    LastIndex ⟨pre ++ x ++ post⟩ c = (pre.length : Int) + LastIndex ⟨x⟩ c := by
  have npre : c ∉ pre := fun h => by
    have := hpre c h
    rw [hc] at this
    exact absurd this (by decide)
  have npost : c ∉ post := fun h => by
    have := hpost c h
    rw [hc] at this
    exact absurd this (by decide)
  have hmem : c ∈ pre ++ x ++ post := by simp [hx]
  constructor
  · unfold Index
    rw [if_pos hmem, if_pos hx]
    show (((pre ++ x ++ post).indexOf c : Nat) : Int) = (pre.length : Int) + ((x.indexOf c : Nat) : Int)
    rw [List.append_assoc, List.indexOf_append_of_not_mem npre, List.indexOf_append_of_mem hx]
    push_cast
    rfl
  · unfold LastIndex
    rw [if_pos hmem, if_pos hx]
    show ((((pre ++ x ++ post).length - 1 - (pre ++ x ++ post).reverse.indexOf c : Nat)) : Int) =
      (pre.length : Int) + (((x.length - 1 - x.reverse.indexOf c : Nat)) : Int)
    have e : (pre ++ x ++ post).reverse = post.reverse ++ (x.reverse ++ pre.reverse) := by simp
    have npost' : c ∉ post.reverse := by simpa using npost
    have hx' : c ∈ x.reverse := by simpa using hx
    rw [e, List.indexOf_append_of_not_mem npost', List.indexOf_append_of_mem hx']
    have hlt : x.reverse.indexOf c < x.reverse.length := List.indexOf_lt_length.2 hx'
    simp only [List.length_append, List.length_reverse] at hlt ⊢
    omega

theorem mem_sandwich (pre x post : List Char) (c : Char) (hc : isSpace c = false)
    (hpre : ∀ d ∈ pre, isSpace d = true) (hpost : ∀ d ∈ post, isSpace d = true) :
    c ∈ pre ++ x ++ post ↔ c ∈ x := by
  constructor
  · intro h
    simp only [List.mem_append] at h
    rcases h with (h | h) | h
    · have := hpre c h
      rw [hc] at this
      exact absurd this (by decide)
    · exact h
    · have := hpost c h
      rw [hc] at this
      exact absurd this (by decide)
  · intro h
    simp [h]

theorem index_nonneg_mem (s : String) (c : Char) (h : Index s c ≥ 0) : c ∈ s.data := by
  unfold Index at h
  by_contra hn
  rw [if_neg hn] at h
  omega

theorem lastIndex_nonneg_mem (s : String) (c : Char) (h : LastIndex s c ≥ 0) : c ∈ s.data := by
  unfold LastIndex at h
  by_contra hn
  rw [if_neg hn] at h
  omega

/-- A text without a brace pair keeps none when its white space is trimmed. -/
theorem no_pair_trimSpace (raw : String)
    (h : '\x7b' ∉ raw.data ∨ '\x7d' ∉ raw.data ∨ LastIndex raw '\x7d' ≤ Index raw '\x7b') :
    ¬ (Index (TrimSpace raw) '\x7b' ≥ 0 ∧
      LastIndex (TrimSpace raw) '\x7d' > Index (TrimSpace raw) '\x7b') := by
  rintro ⟨h1, h2⟩
  obtain ⟨pre, post, e, hpre, hpost⟩ := trimSpace_decomp raw
  have m1 : '\x7b' ∈ (TrimSpace raw).data := index_nonneg_mem _ _ h1
  have m2 : '\x7d' ∈ (TrimSpace raw).data := lastIndex_nonneg_mem _ _ (by omega)
  have eraw : raw = ⟨pre ++ (TrimSpace raw).data ++ post⟩ := String.ext e
  have i1 := (index_sandwich pre _ post '\x7b' (by decide) hpre hpost m1).1
  have i2 := (index_sandwich pre _ post '\x7d' (by decide) hpre hpost m2).2
  rw [← eraw] at i1 i2
  have eta : (⟨(TrimSpace raw).data⟩ : String) = TrimSpace raw := rfl
  rw [eta] at i1 i2
  rcases h with h | h | h
  · rw [e] at h
    exact h ((mem_sandwich pre _ post _ (by decide) hpre hpost).2 m1)
  · rw [e] at h
    exact h ((mem_sandwich pre _ post _ (by decide) hpre hpost).2 m2)
  · omega

end strings

namespace services

theorem generateGroceryList_of_text (w : World) (meals : List String) (text : String)
    (h : ModelAnswers w meals text) :
    (GenerateGroceryList w meals).1 = .returned (processResponse w text).1 := by
  obtain ⟨h1, h2, h3, parts, rest, h4⟩ := h
  have h1' : ¬ meals.length = 0 := by
    intro e
    exact h1 (List.length_eq_zero.1 e)
  unfold GenerateGroceryList
  simp only [h1', if_false, h2, h3, h4]

theorem flattenIngredients_singleton (w : World) (category : String)
    (ingredients : List String) :
    flattenIngredients w [(category, ingredients)] = ingredients := by
  unfold flattenIngredients
  have h := (w.rangeOrder [(category, ingredients)]).property
  rw [List.perm_singleton] at h
  rw [h]
  simp

theorem processResponse_of_rejected (w : World) (raw : String)
    (h : json.Unmarshal (cleanResponse raw) = none) :
    (processResponse w raw).1 =
      (none, some (errParse (w.jsonDiagnostic (cleanResponse raw)) (cleanResponse raw))) := by
  have hu : w.unmarshal (cleanResponse raw) =
      .error (w.jsonDiagnostic (cleanResponse raw)) := by
    unfold World.unmarshal
    rw [h]
  simp only [processResponse, hu]

theorem processResponse_of_accepted (w : World) (raw : String) (m : GoMap (List String))
    (h : json.Unmarshal (cleanResponse raw) = some m) :
    (processResponse w raw).1 =
      (some [("grocery_list", .groceryList m),
             ("healthier_swaps",
              .swaps (SuggestHealthierSwaps w.unicodeLower (flattenIngredients w m)).1)],
       none) := by
  have hu : w.unmarshal (cleanResponse raw) = .ok m := by
    unfold World.unmarshal
    rw [h]
  simp only [processResponse, hu, SuggestHealthierSwaps]

theorem processResponse_shape (w : World) (raw : String) :
    (∃ err, (processResponse w raw).1 = (none, some err)) ∨
    (∃ g s, (processResponse w raw).1 =
      (some [("grocery_list", .groceryList g), ("healthier_swaps", .swaps s)], none)) := by
  cases hu : json.Unmarshal (cleanResponse raw) with
  | none => exact Or.inl ⟨_, processResponse_of_rejected w raw hu⟩
  | some m => exact Or.inr ⟨_, _, processResponse_of_accepted w raw m hu⟩

/-- Every call of `GenerateGroceryList` returns a nil result with an error, or returns a
result holding `grocery_list` and `healthier_swaps` with a nil error, or panics; it panics
only when the first candidate of the model's response has a nil `Content`. -/
theorem generateGroceryList_shape (w : World) (meals : List String) :
    (∃ err, (GenerateGroceryList w meals).1 = .returned (none, some err)) ∨
    (∃ g s, (GenerateGroceryList w meals).1 =
      .returned (some [("grocery_list", .groceryList g), ("healthier_swaps", .swaps s)],
        none)) ∨
    (∃ reason rest, (GenerateGroceryList w meals).1 = .panicked reason ∧
      w.generateContent "gemini-1.5-pro" (buildPrompt meals) = .ok ⟨⟨none⟩ :: rest⟩) := by
  unfold GenerateGroceryList
  by_cases h1 : meals.length = 0
  · rw [if_pos h1]
    exact Or.inl ⟨_, rfl⟩
  rw [if_neg h1]
  by_cases h2 : w.getenv "GEMINI_API_KEY" = ""
  · simp only [h2, if_true]
    exact Or.inl ⟨_, rfl⟩
  simp only [h2, if_false]
  cases h3 : w.newClient (w.getenv "GEMINI_API_KEY") with
  | some err => exact Or.inl ⟨_, rfl⟩
  | none =>
    simp only
    cases h4 : w.generateContent "gemini-1.5-pro" (buildPrompt meals) with
    | error err => exact Or.inl ⟨_, rfl⟩
    | ok resp =>
      obtain ⟨cands⟩ := resp
      cases cands with
      | nil => exact Or.inl ⟨_, rfl⟩
      | cons cand rest =>
        obtain ⟨content⟩ := cand
        cases content with
        | none => exact Or.inr (Or.inr ⟨_, rest, rfl, rfl⟩)
        | some content =>
          obtain ⟨parts⟩ := content
          cases parts with
          | nil => exact Or.inl ⟨_, rfl⟩
          | cons part parts =>
            cases part with
            | Text raw =>
              rcases processResponse_shape w raw with ⟨err, he⟩ | ⟨g, s, he⟩
              · exact Or.inl ⟨err, by simp only [he]⟩
              · exact Or.inr (Or.inl ⟨g, s, by simp only [he]⟩)
            | Blob m => exact Or.inl ⟨_, rfl⟩
            | FunctionCall n => exact Or.inl ⟨_, rfl⟩

end services

namespace GoMap

variable {V : Type}

theorem mem_iff_lookup (m : GoMap V) (h : m.keys.Nodup) (k : String) (v : V) :
    (k, v) ∈ m ↔ m.lookup k = some v := by
  induction m with
  | nil => simp [lookup]
  | cons e rest ih =>
    obtain ⟨k0, v0⟩ := e
    have hk : k0 ∉ keys rest ∧ (keys rest).Nodup := by simpa [keys] using h
    by_cases h0 : k0 = k
    · subst h0
      have hno : (k0, v) ∉ rest := fun hm => hk.1 (List.mem_map.2 ⟨(k0, v), hm, rfl⟩)
      simp only [List.mem_cons, Prod.mk.injEq, true_and, lookup, if_true, Option.some.injEq]
      constructor
      · rintro (h1 | h1)
        · exact h1.symm
        · exact absurd h1 hno
      · intro h1
        exact Or.inl h1.symm
    · have h0' : ¬ k = k0 := fun e => h0 e.symm
      simp only [List.mem_cons, Prod.mk.injEq, h0', false_and, false_or, lookup, h0, if_false]
      exact ih hk.2

theorem perm_of_lookup_eq (m1 m2 : GoMap V) (h1 : m1.keys.Nodup) (h2 : m2.keys.Nodup)
    (h : ∀ k, m1.lookup k = m2.lookup k) : m1.Perm m2 := by
  rw [List.perm_ext_iff_of_nodup (List.Nodup.of_map _ h1) (List.Nodup.of_map _ h2)]
  rintro ⟨k, v⟩
  rw [mem_iff_lookup m1 h1, mem_iff_lookup m2 h2, h k]

end GoMap

namespace services

theorem swaps_keys_nodup (U : Char → Char) (ings : List String) :
    (SuggestHealthierSwaps U ings).1.keys.Nodup :=
  foldl_swapStep_nodup U ings [] (by simp [GoMap.keys])

theorem lookup_swaps_congr (U : Char → Char) (xs ys : List String)
    (h : ∀ x, x ∈ ys ↔ x ∈ xs) (k : String) :
    (SuggestHealthierSwaps U ys).1.lookup k = (SuggestHealthierSwaps U xs).1.lookup k := by
  rw [lookup_swaps, lookup_swaps]
  by_cases hk : k ∈ xs
  · rw [if_pos hk, if_pos ((h k).2 hk)]
  · rw [if_neg hk, if_neg (fun e => hk ((h k).1 e))]

theorem mem_flattenIngredients (w : World) (g : GoMap (List String)) (x : String) :
    x ∈ flattenIngredients w g ↔ ∃ e ∈ g, x ∈ e.2 := by
  unfold flattenIngredients
  have hp := (w.rangeOrder g).property
  simp only [List.mem_flatten, List.mem_map]
  constructor
  · rintro ⟨l, ⟨e, he, rfl⟩, hx⟩
    exact ⟨e, hp.mem_iff.1 he, hx⟩
  · rintro ⟨e, he, hx⟩
    exact ⟨e.2, ⟨e, hp.mem_iff.2 he, rfl⟩, hx⟩

end services


namespace services

/-- A call that reaches the model: non-empty meals, API key set, client created. -/
theorem generateGroceryList_of_reply (w : World) (meals : List String)
    (hm : meals ≠ []) (hk : w.getenv "GEMINI_API_KEY" ≠ "")
    (hc : w.newClient (w.getenv "GEMINI_API_KEY") = none)
    (reply : genai.GenerateContentResponse)
    (hr : w.generateContent "gemini-1.5-pro" (buildPrompt meals) = .ok reply) :
    (reply.Candidates = [] →
      (GenerateGroceryList w meals).1 = .returned (none, some errNoResponse)) ∧
    (∀ rest, reply.Candidates = ⟨some ⟨[]⟩⟩ :: rest →
      (GenerateGroceryList w meals).1 = .returned (none, some errNoResponse)) ∧
    (∀ rest, reply.Candidates = ⟨none⟩ :: rest →
      (GenerateGroceryList w meals).1 =
        .panicked "runtime error: invalid memory address or nil pointer dereference") := by
  have h1 : ¬ meals.length = 0 := fun e => hm (List.length_eq_zero.1 e)
  obtain ⟨cands⟩ := reply
  refine ⟨?_, ?_, ?_⟩
  · intro h
    simp only at h
    subst h
    unfold GenerateGroceryList
    simp only [h1, if_false, hk, hc, hr]
  · intro rest h
    simp only at h
    subst h
    unfold GenerateGroceryList
    simp only [h1, if_false, hk, hc, hr]
  · intro rest h
    simp only at h
    subst h
    unfold GenerateGroceryList
    simp only [h1, if_false, hk, hc, hr]

theorem generateGroceryList_first_part (w1 w2 : World) (meals : List String)
    (part : genai.Part) (parts1 parts2 : List genai.Part)
    (rest1 rest2 : List genai.Candidate)
    (henv : w1.getenv = w2.getenv) (hcl : w1.newClient = w2.newClient)
    (hd : w1.jsonDiagnostic = w2.jsonDiagnostic)
    (hro : @World.rangeOrder w1 = @World.rangeOrder w2)
    (hu : w1.unicodeLower = w2.unicodeLower)
    (h1 : w1.generateContent "gemini-1.5-pro" (buildPrompt meals) =
      .ok ⟨⟨some ⟨part :: parts1⟩⟩ :: rest1⟩)
    (h2 : w2.generateContent "gemini-1.5-pro" (buildPrompt meals) =
      .ok ⟨⟨some ⟨part :: parts2⟩⟩ :: rest2⟩) :
    GenerateGroceryList w1 meals = GenerateGroceryList w2 meals := by
  obtain ⟨g1, n1, c1, d1, r1, u1⟩ := w1
  obtain ⟨g2, n2, c2, d2, r2, u2⟩ := w2
  simp only at henv hcl hd hro hu h1 h2
  subst henv hcl hd hu
  have hro' : @r1 = @r2 := hro
  subst hro'
  unfold GenerateGroceryList
  by_cases hm : meals.length = 0
  · simp only [hm, if_true]
  simp only [hm, if_false]
  by_cases hk : g1 "GEMINI_API_KEY" = ""
  · simp only [hk, if_true]
  simp only [hk, if_false]
  cases hn : n1 (g1 "GEMINI_API_KEY") with
  | some err => rfl
  | none =>
    simp only [h1, h2]
    cases part <;> rfl

end services


namespace GoMap

variable {V : Type}

theorem mem_keys_set (m : GoMap V) (k k2 : String) (v : V) :
    k2 ∈ (m.set k v).keys ↔ k2 = k ∨ k2 ∈ m.keys := by
  rw [mem_keys_iff, mem_keys_iff]
  simp only [lookup_set]
  by_cases h : k = k2
  · subst h
    simp
  · have h2 : ¬ k2 = k := fun e => h e.symm
    simp [h, h2]

theorem foldl_set_unit_keys (xs : List String) (init : GoMap Unit) :
    (∀ k, k ∈ (xs.foldl (fun set x => set.set x ()) init).keys ↔ k ∈ init.keys ∨ k ∈ xs) ∧
    (init.keys.Nodup → (xs.foldl (fun set x => set.set x ()) init).keys.Nodup) := by
  induction xs generalizing init with
  | nil => simp
  | cons x rest ih =>
    rw [List.foldl_cons]
    obtain ⟨ih1, ih2⟩ := ih (init.set x ())
    constructor
    · intro k
      rw [ih1, mem_keys_set]
      simp only [List.mem_cons]
      tauto
    · intro hn
      exact ih2 (keys_set_nodup init x () hn)

end GoMap

namespace services

theorem mem_flatten_range {V : Type} (w : World) (g : GoMap (List V)) (x : V) :
    x ∈ ((w.rangeOrder g).val.map Prod.snd).flatten ↔ ∃ e ∈ g, x ∈ e.2 := by
  have hp := (w.rangeOrder g).property
  simp only [List.mem_flatten, List.mem_map]
  constructor
  · rintro ⟨l, ⟨e, he, rfl⟩, hx⟩
    exact ⟨e, hp.mem_iff.1 he, hx⟩
  · rintro ⟨e, he, hx⟩
    exact ⟨e.2, ⟨e, hp.mem_iff.2 he, rfl⟩, hx⟩

theorem mergeIngredients_spec (w : World) (m : IngredientMap) :
    (MergeIngredients w m).Nodup ∧
    ∀ s, s ∈ MergeIngredients w m ↔ ∃ e ∈ m, s ∈ e.2 := by
  unfold MergeIngredients
  simp only
  obtain ⟨hmem, hnd⟩ := GoMap.foldl_set_unit_keys
    ((w.rangeOrder m).val.map Prod.snd).flatten []
  have hp := (w.rangeOrder (List.foldl (fun set x => GoMap.set set x ())
    ([] : GoMap Unit) ((w.rangeOrder m).val.map Prod.snd).flatten)).property
  have hpk := hp.map Prod.fst
  constructor
  · exact hpk.nodup_iff.2 (hnd (by simp [GoMap.keys]))
  · intro s
    rw [hpk.mem_iff]
    have := hmem s
    simp only [GoMap.keys, List.map_nil, List.not_mem_nil, false_or] at this
    rw [this, mem_flatten_range]

end services


namespace services

theorem mealCase_eq (s : String) :
    mealCase s =
      if s = "pasta" then some ("pasta", ["spaghetti", "olive oil", "garlic", "tomatoes"])
      else if s = "salad" then some ("salad", ["lettuce", "tomatoes", "cucumber", "olive oil"])
      else if s = "pancakes" then some ("pancakes", ["flour", "milk", "eggs", "baking powder"])
      else none := by
  unfold mealCase
  split <;> simp_all

theorem mealCase_none_iff (s : String) :
    mealCase s = none ↔ s ∉ ["pasta", "salad", "pancakes"] := by
  rw [mealCase_eq]
  by_cases h1 : s = "pasta"
  · simp [h1]
  by_cases h2 : s = "salad"
  · simp [h2]
  by_cases h3 : s = "pancakes"
  · simp [h3]
  simp [h1, h2, h3]

theorem mealCase_some (s key : String) (list : List String)
    (h : mealCase s = some (key, list)) :
    key = s ∧ s ∈ ["pasta", "salad", "pancakes"] ∧
    some list =
      (if s = "pasta" then some ["spaghetti", "olive oil", "garlic", "tomatoes"]
       else if s = "salad" then some ["lettuce", "tomatoes", "cucumber", "olive oil"]
       else some ["flour", "milk", "eggs", "baking powder"]) := by
  rw [mealCase_eq] at h
  by_cases h1 : s = "pasta"
  · subst h1
    simp only [if_true, Option.some.injEq, Prod.mk.injEq] at h
    obtain ⟨e1, e2⟩ := h
    subst e1 e2
    exact ⟨rfl, by decide, by decide⟩
  by_cases h2 : s = "salad"
  · subst h2
    simp only [if_neg h1, if_true, Option.some.injEq, Prod.mk.injEq] at h
    obtain ⟨e1, e2⟩ := h
    subst e1 e2
    exact ⟨rfl, by decide, by decide⟩
  by_cases h3 : s = "pancakes"
  · subst h3
    simp only [if_neg h1, if_neg h2, if_true, Option.some.injEq, Prod.mk.injEq] at h
    obtain ⟨e1, e2⟩ := h
    subst e1 e2
    exact ⟨rfl, by decide, by decide⟩
  simp [h1, h2, h3] at h

/-- The value `ExpandMeals` stores under a lower-cased meal name. -/
theorem expandLoop_ok (U : Char → Char) (meals : List String) (acc : IngredientMap)
    (h : ∀ m ∈ meals, strings.ToLower U m ∈ ["pasta", "salad", "pancakes"]) :
    ∃ map, expandLoop U meals acc = (some map, none) ∧
      (acc.keys.Nodup → map.keys.Nodup) ∧
      ∀ k, map.lookup k =
        if k ∈ meals.map (strings.ToLower U) then
          (if k = "pasta" then some ["spaghetti", "olive oil", "garlic", "tomatoes"]
           else if k = "salad" then some ["lettuce", "tomatoes", "cucumber", "olive oil"]
           else some ["flour", "milk", "eggs", "baking powder"])
        else acc.lookup k := by
  induction meals generalizing acc with
  | nil => exact ⟨acc, rfl, fun hn => hn, fun k => by simp⟩
  | cons meal rest ih =>
    have hm := h meal (by simp)
    have hrest : ∀ m ∈ rest, strings.ToLower U m ∈ ["pasta", "salad", "pancakes"] :=
      fun m hm => h m (List.mem_cons_of_mem _ hm)
    cases hc : mealCase (strings.ToLower U meal) with
    | none => exact absurd hm ((mealCase_none_iff _).1 hc)
    | some kv =>
      obtain ⟨key, list⟩ := kv
      obtain ⟨hkey, -, hlist⟩ := mealCase_some _ key list hc
      obtain ⟨map, hmap, hnd, hlook⟩ := ih (acc.set key list) hrest
      refine ⟨map, ?_, ?_, ?_⟩
      · simp only [expandLoop, hc]
        exact hmap
      · intro hn
        exact hnd (GoMap.keys_set_nodup acc key list hn)
      · intro k
        rw [hlook k, GoMap.lookup_set]
        simp only [List.map_cons, List.mem_cons]
        by_cases hk : k ∈ rest.map (strings.ToLower U)
        · simp [hk]
        · simp only [hk, if_false, or_false]
          by_cases hk2 : key = k
          · subst hk2
            rw [if_pos rfl, if_pos hkey, hlist, hkey]
          · have hk3 : ¬ k = strings.ToLower U meal := fun e => hk2 (hkey.trans e.symm)
            rw [if_neg hk2, if_neg hk3]

theorem expandLoop_unknown (U : Char → Char) (pre post : List String) (m0 : String)
    (acc : IngredientMap)
    (hpre : ∀ m ∈ pre, strings.ToLower U m ∈ ["pasta", "salad", "pancakes"])
    (h0 : strings.ToLower U m0 ∉ ["pasta", "salad", "pancakes"]) :
    expandLoop U (pre ++ m0 :: post) acc = (none, some ("unknown meal: " ++ m0)) := by
  induction pre generalizing acc with
  | nil =>
    have hc := (mealCase_none_iff _).2 h0
    simp only [List.nil_append, expandLoop, hc]
  | cons meal rest ih =>
    have hm := hpre meal (by simp)
    cases hc : mealCase (strings.ToLower U meal) with
    | none => exact absurd hm ((mealCase_none_iff _).1 hc)
    | some kv =>
      obtain ⟨key, list⟩ := kv
      simp only [List.cons_append, expandLoop, hc]
      exact ih _ (fun m hm => hpre m (List.mem_cons_of_mem _ hm))

theorem exists_first_unknown (U : Char → Char) (meals : List String)
    (h : ¬ ∀ m ∈ meals, strings.ToLower U m ∈ ["pasta", "salad", "pancakes"]) :
    ∃ pre m0 post, meals = pre ++ m0 :: post ∧
      (∀ m ∈ pre, strings.ToLower U m ∈ ["pasta", "salad", "pancakes"]) ∧
      strings.ToLower U m0 ∉ ["pasta", "salad", "pancakes"] := by
  induction meals with
  | nil => simp at h
  | cons meal rest ih =>
    by_cases hm : strings.ToLower U meal ∈ ["pasta", "salad", "pancakes"]
    · have hr : ¬ ∀ m ∈ rest, strings.ToLower U m ∈ ["pasta", "salad", "pancakes"] := by
        intro hall
        apply h
        intro m hmem
        rcases List.mem_cons.1 hmem with e | e
        · rw [e]; exact hm
        · exact hall m e
      obtain ⟨pre, m0, post, e, hpre, h0⟩ := ih hr
      refine ⟨meal :: pre, m0, post, by rw [e]; rfl, ?_, h0⟩
      intro m hmem
      rcases List.mem_cons.1 hmem with e | e
      · rw [e]; exact hm
      · exact hpre m e
    · exact ⟨[], meal, rest, rfl, by simp, hm⟩

end services


namespace strings

theorem trimRight_eq_self (l : List Char)
    (h : ∀ c, l.getLast? = some c → isSpace c = false) : trimRight l = l := by
  induction l with
  | nil => rfl
  | cons x rest ih =>
    cases rest with
    | nil =>
      have hx := h x (by simp)
      simp [trimRight, hx]
    | cons y ys =>
      have ih' := ih (fun c hc => h c (by rw [List.getLast?_cons_cons]; exact hc))
      simp only [trimRight] at ih' ⊢
      rw [ih']

theorem dropWhile_eq_self (l : List Char)
    (h : ∀ c r, l = c :: r → isSpace c = false) : l.dropWhile isSpace = l := by
  cases l with
  | nil => rfl
  | cons c r => simp [List.dropWhile, h c r rfl]

theorem trimSpace_idempotent (raw : String) :
    TrimSpace (TrimSpace raw) = TrimSpace raw := by
  have h1 := trimSpace_head_not_space raw
  have h2 := trimSpace_last_not_space raw
  show (⟨trimRight ((TrimSpace raw).data.dropWhile isSpace)⟩ : String) = TrimSpace raw
  rw [dropWhile_eq_self _ h1, trimRight_eq_self _ h2]

theorem lastIndex_append_cons (x post : List Char) (c : Char) (h : c ∉ post) :
    LastIndex ⟨x ++ c :: post⟩ c = (x.length : Int) := by
  unfold LastIndex
  rw [if_pos (by simp)]
  have e : (x ++ c :: post).reverse = post.reverse ++ c :: x.reverse := by simp
  show ((((x ++ c :: post).length - 1 - (x ++ c :: post).reverse.indexOf c : Nat)) : Int) = _
  rw [e, indexOf_append_cons _ _ _ (by simpa using h)]
  congr 1
  simp

theorem index_append_cons (pre rest : List Char) (c : Char) (h : c ∉ pre) :
    Index ⟨pre ++ c :: rest⟩ c = (pre.length : Int) := by
  unfold Index
  rw [if_pos (by simp), indexOf_append_cons _ _ _ h]

/-- A text in which a first opening brace comes before a last closing brace splits into a
part without opening brace, a braced part, and a part without closing brace. -/
theorem pair_decomp (s : String)
    (h : Index s '\x7b' ≥ 0 ∧ LastIndex s '\x7d' > Index s '\x7b') :
    ∃ pre mid post, s.data = pre ++ ('\x7b' :: mid ++ ['\x7d']) ++ post ∧
      '\x7b' ∉ pre ∧ '\x7d' ∉ post := by
  obtain ⟨h1, h2⟩ := h
  have m1 : '\x7b' ∈ s.data := index_nonneg_mem _ _ h1
  have m2 : '\x7d' ∈ s.data := lastIndex_nonneg_mem _ _ (by omega)
  obtain ⟨pre, rest, e1, hpre⟩ := List.eq_append_cons_of_mem m1
  have m2' : '\x7d' ∈ s.data.reverse := by simpa using m2
  obtain ⟨a, b, e2, ha⟩ := List.eq_append_cons_of_mem m2'
  have e3 : s.data = b.reverse ++ '\x7d' :: a.reverse := by
    have := congrArg List.reverse e2
    simpa using this
  have hpost : '\x7d' ∉ a.reverse := by simpa using ha
  have eta : s = ⟨s.data⟩ := rfl
  have i1 : Index s '\x7b' = (pre.length : Int) := by
    rw [eta, e1]
    exact index_append_cons pre rest _ hpre
  have i2 : LastIndex s '\x7d' = (b.reverse.length : Int) := by
    rw [eta, e3]
    exact lastIndex_append_cons b.reverse a.reverse _ hpost
  have hlen : pre.length < b.reverse.length := by omega
  have e4 : pre ++ '\x7b' :: rest = b.reverse ++ '\x7d' :: a.reverse := by rw [← e1, e3]
  rcases List.append_eq_append_iff.1 e4 with ⟨a', ea, eb⟩ | ⟨c', ea, eb⟩
  · cases a' with
    | nil =>
      rw [ea] at hlen
      simp at hlen
    | cons x mid =>
      simp only [List.cons_append, List.cons.injEq] at eb
      obtain ⟨ex, erest⟩ := eb
      subst ex
      refine ⟨pre, mid, a.reverse, ?_, hpre, hpost⟩
      rw [e1, erest]
      simp
  · rw [ea] at hlen
    simp at hlen

end strings

namespace services

theorem cleanResponse_braced (mid : List Char) :
    cleanResponse ⟨'\x7b' :: mid ++ ['\x7d']⟩ = ⟨'\x7b' :: mid ++ ['\x7d']⟩ := by
  have := cleanResponse_parts [] mid [] (by simp) (by simp)
  simpa using this

/-- When the slice is taken, the cleaned text is the braced part of the trimmed text. -/
theorem cleanResponse_of_pair (t : String)
    (h : strings.Index (strings.TrimSpace t) '\x7b' ≥ 0 ∧
      strings.LastIndex (strings.TrimSpace t) '\x7d' >
        strings.Index (strings.TrimSpace t) '\x7b') :
    ∃ mid, cleanResponse t = ⟨'\x7b' :: mid ++ ['\x7d']⟩ ∧
      ('\x7b' :: mid ++ ['\x7d']) <:+: t.data := by
  obtain ⟨pre, mid, post, e, hpre, hpost⟩ := strings.pair_decomp _ h
  obtain ⟨pre0, post0, e0, hpre0, hpost0⟩ := strings.trimSpace_decomp t
  have npre0 : '\x7b' ∉ pre0 := fun hm => by
    have := hpre0 _ hm
    exact absurd this (by decide)
  have npost0 : '\x7d' ∉ post0 := fun hm => by
    have := hpost0 _ hm
    exact absurd this (by decide)
  have et : t = ⟨(pre0 ++ pre) ++ ('\x7b' :: mid ++ ['\x7d']) ++ (post ++ post0)⟩ := by
    apply String.ext
    rw [e0, e]
    simp
  refine ⟨mid, ?_, ?_⟩
  · rw [et]
    exact cleanResponse_parts (pre0 ++ pre) mid (post ++ post0)
      (by simp [npre0, hpre]) (by simp [npost0, hpost])
  · refine ⟨pre0 ++ pre, post ++ post0, ?_⟩
    rw [e0, e]
    simp

end services


namespace json

theorem step_m (s : St) (c : Char) :
    (step s c).m = s.m ∨ ∃ k v, (step s c).m = s.m.set k v := by
  unfold step
  cases hc : s.ctl with
  | inKey mode =>
    simp only
    cases strStep mode s.buf s.hi c <;> simp
  | inElem mode =>
    simp only
    cases strStep mode s.buf s.hi c <;> simp
  | start => simp only; split_ifs <;> simp
  | topLit k => simp only; split_ifs <;> simp
  | done => simp only; split_ifs <;> simp
  | error => simp
  | objOpen => simp only; split_ifs <;> simp
  | objNext => simp only; split_ifs <;> simp
  | afterKey => simp only; split_ifs <;> simp
  | beforeVal => simp only; split_ifs <;> simp
  | valLit k =>
    simp only
    split_ifs
    · exact Or.inr ⟨_, _, rfl⟩
    · exact Or.inl rfl
    · exact Or.inl rfl
  | arrOpen =>
    simp only
    split_ifs
    · exact Or.inl rfl
    · exact Or.inr ⟨_, _, rfl⟩
    · exact Or.inl rfl
    · exact Or.inl rfl
    · exact Or.inl rfl
  | arrNext => simp only; split_ifs <;> simp
  | elemLit k => simp only; split_ifs <;> simp
  | afterElem =>
    simp only
    split_ifs
    · exact Or.inl rfl
    · exact Or.inl rfl
    · exact Or.inr ⟨_, _, rfl⟩
    · exact Or.inl rfl
  | afterVal => simp only; split_ifs <;> simp

theorem run_keys_nodup (cs : List Char) (s : St) (h : s.m.keys.Nodup) :
    (cs.foldl step s).m.keys.Nodup := by
  induction cs generalizing s with
  | nil => simpa using h
  | cons c r ih =>
    rw [List.foldl_cons]
    apply ih
    rcases step_m s c with e | ⟨k, v, e⟩
    · rw [e]; exact h
    · rw [e]; exact GoMap.keys_set_nodup s.m k v h

/-- A decoded map has pairwise distinct keys. -/
theorem unmarshal_keys_nodup (text : String) (m : GoMap (List String))
    (h : Unmarshal text = some m) : m.keys.Nodup := by
  unfold Unmarshal at h
  simp only at h
  split_ifs at h
  simp only [Option.some.injEq] at h
  rw [← h]
  exact run_keys_nodup text.data initial (by simp [initial, GoMap.keys])

end json

namespace services

theorem mem_swaps_keys_iff (U : Char → Char) (ings : List String) (t : String) :
    t ∈ (SuggestHealthierSwaps U ings).1.keys ↔ t ∈ ings ∧ normalize U t ∈ aliases := by
  rw [GoMap.mem_keys_iff, lookup_swaps, ← tableSuggestion_ne_none_iff]
  by_cases h1 : t ∈ ings
  · simp only [h1, if_true, true_and]
    cases tableSuggestion (normalize U t) <;> simp
  · simp [h1]

theorem processResponse_success (w : World) (raw : String) (r : Result)
    (h : (processResponse w raw).1 = (some r, none)) :
    ∃ g, json.Unmarshal (cleanResponse raw) = some g ∧
      r = [("grocery_list", .groceryList g),
           ("healthier_swaps",
            .swaps (SuggestHealthierSwaps w.unicodeLower (flattenIngredients w g)).1)] := by
  cases hu : json.Unmarshal (cleanResponse raw) with
  | none =>
    rw [processResponse_of_rejected w raw hu] at h
    simp at h
  | some g =>
    rw [processResponse_of_accepted w raw g hu] at h
    simp only [Prod.mk.injEq, Option.some.injEq, and_true] at h
    exact ⟨g, rfl, h.symm⟩

theorem generateGroceryList_success (w : World) (meals : List String) (r : Result)
    (h : (GenerateGroceryList w meals).1 = .returned (some r, none)) :
    ∃ raw g, json.Unmarshal (cleanResponse raw) = some g ∧
      r = [("grocery_list", .groceryList g),
           ("healthier_swaps",
            .swaps (SuggestHealthierSwaps w.unicodeLower (flattenIngredients w g)).1)] := by
  unfold GenerateGroceryList at h
  by_cases h1 : meals.length = 0
  · rw [if_pos h1] at h
    simp at h
  rw [if_neg h1] at h
  by_cases h2 : w.getenv "GEMINI_API_KEY" = ""
  · simp only [h2, if_true] at h
    simp at h
  simp only [h2, if_false] at h
  cases h3 : w.newClient (w.getenv "GEMINI_API_KEY") with
  | some err =>
    rw [h3] at h
    simp at h
  | none =>
    rw [h3] at h
    simp only at h
    cases h4 : w.generateContent "gemini-1.5-pro" (buildPrompt meals) with
    | error err =>
      rw [h4] at h
      simp at h
    | ok resp =>
      rw [h4] at h
      obtain ⟨cands⟩ := resp
      cases cands with
      | nil => simp at h
      | cons cand rest =>
        obtain ⟨content⟩ := cand
        cases content with
        | none => simp at h
        | some content =>
          obtain ⟨parts⟩ := content
          cases parts with
          | nil => simp at h
          | cons part parts =>
            cases part with
            | Text raw =>
              simp only [Outcome.returned.injEq] at h
              obtain ⟨g, hg, hr⟩ := processResponse_success w raw r h
              exact ⟨raw, g, hg, hr⟩
            | Blob m => simp at h
            | FunctionCall n => simp at h

end services

namespace services

/-- C1: a string is a key of the result of `SuggestHealthierSwaps` exactly when it is an
element of the input whose normalisation `ToLower(TrimSpace(s))` is an alias of the table;
the value stored under an input element is the table's suggestion for its normalisation (and
nothing is stored for the others), and "asparagus", which has no table entry, is never a
key. -/
theorem suggestHealthierSwaps_keys_iff (U : Char → Char) (ings : List String) (s : String) :
    (s ∈ (SuggestHealthierSwaps U ings).1.keys ↔ s ∈ ings ∧ normalize U s ∈ aliases) ∧
    ((SuggestHealthierSwaps U ings).1.lookup s =
      if s ∈ ings then tableSuggestion (normalize U s) else none) ∧
    "asparagus" ∉ (SuggestHealthierSwaps U ings).1.keys := by
  have key : ∀ t : String, t ∈ (SuggestHealthierSwaps U ings).1.keys ↔
      t ∈ ings ∧ normalize U t ∈ aliases := by
    intro t
    rw [GoMap.mem_keys_iff, lookup_swaps, ← tableSuggestion_ne_none_iff]
    by_cases h1 : t ∈ ings
    · simp only [h1, if_true, true_and]
      cases tableSuggestion (normalize U t) <;> simp
    · simp [h1]
  refine ⟨key s, lookup_swaps U ings s, ?_⟩
  rw [key]
  rintro ⟨-, h⟩
  have hn : normalize U "asparagus" = "asparagus" := rfl
  rw [hn] at h
  revert h
  decide

/-- C2: two elements of the input whose normalisations are aliases of the same table row are
both keys of the result and both map to that row's suggestion; the keys of the result are
pairwise distinct, so different spellings occupy separate entries. -/
theorem suggestHealthierSwaps_same_row (U : Char → Char) (ings : List String)
    (a b : String) (row : List String × String)
    (ha : a ∈ ings) (hb : b ∈ ings) (hrow : row ∈ swapTable)
    (hna : normalize U a ∈ row.1) (hnb : normalize U b ∈ row.1) :
    a ∈ (SuggestHealthierSwaps U ings).1.keys ∧
    b ∈ (SuggestHealthierSwaps U ings).1.keys ∧
    (SuggestHealthierSwaps U ings).1.lookup a = some row.2 ∧
    (SuggestHealthierSwaps U ings).1.lookup b = some row.2 ∧
    (SuggestHealthierSwaps U ings).1.keys.Nodup := by
  have la : (SuggestHealthierSwaps U ings).1.lookup a = some row.2 := by
    rw [lookup_swaps, if_pos ha, tableSuggestion_of_row row hrow _ hna]
  have lb : (SuggestHealthierSwaps U ings).1.lookup b = some row.2 := by
    rw [lookup_swaps, if_pos hb, tableSuggestion_of_row row hrow _ hnb]
  refine ⟨(GoMap.mem_keys_iff _ _).2 ⟨_, la⟩, (GoMap.mem_keys_iff _ _).2 ⟨_, lb⟩, la, lb, ?_⟩
  exact foldl_swapStep_nodup U ings [] (by simp [GoMap.keys])

/-- Witness of C2: "Flour" and " all-purpose flour " in one list, both aliases of the first
row of the table. -/
theorem suggestHealthierSwaps_same_row_witness :
    ("Flour" ∈ ["Flour", "Eggs", " all-purpose flour "] ∧
      " all-purpose flour " ∈ ["Flour", "Eggs", " all-purpose flour "] ∧
      (["flour", "white flour", "all-purpose flour"], "almond flour or whole wheat flour") ∈
        swapTable ∧
      normalize id "Flour" ∈ ["flour", "white flour", "all-purpose flour"] ∧
      normalize id " all-purpose flour " ∈ ["flour", "white flour", "all-purpose flour"]) ∧
    ("Flour" ∈ (SuggestHealthierSwaps id ["Flour", "Eggs", " all-purpose flour "]).1.keys ∧
    " all-purpose flour " ∈
      (SuggestHealthierSwaps id ["Flour", "Eggs", " all-purpose flour "]).1.keys ∧
    (SuggestHealthierSwaps id ["Flour", "Eggs", " all-purpose flour "]).1.lookup "Flour" =
      some "almond flour or whole wheat flour" ∧
    (SuggestHealthierSwaps id ["Flour", "Eggs", " all-purpose flour "]).1.lookup
      " all-purpose flour " = some "almond flour or whole wheat flour" ∧
    (SuggestHealthierSwaps id ["Flour", "Eggs", " all-purpose flour "]).1.keys.Nodup) :=
  ⟨by decide,
   suggestHealthierSwaps_same_row id ["Flour", "Eggs", " all-purpose flour "]
    "Flour" " all-purpose flour "
    (["flour", "white flour", "all-purpose flour"], "almond flour or whole wheat flour")
    (by decide) (by decide) (by decide) (by decide) (by decide)⟩

/-- C3: for every list of ingredients `SuggestHealthierSwaps` returns a map and a nil error;
the map is a function of the list alone (each key of the list bound to the table's
suggestion, nothing else), so two calls on equal lists return equal results. -/
theorem suggestHealthierSwaps_total (U : Char → Char) (ings : List String) :
    (SuggestHealthierSwaps U ings).2 = none ∧
    (∃ m : GoMap String, SuggestHealthierSwaps U ings = (m, none) ∧ m.keys.Nodup ∧
      ∀ k, m.lookup k = if k ∈ ings then tableSuggestion (normalize U k) else none) ∧
    (∀ ings2 : List String, ings2 = ings →
      SuggestHealthierSwaps U ings2 = SuggestHealthierSwaps U ings) := by
  refine ⟨rfl, ⟨(SuggestHealthierSwaps U ings).1, rfl, ?_, fun k => lookup_swaps U ings k⟩, ?_⟩
  · exact foldl_swapStep_nodup U ings [] (by simp [GoMap.keys])
  · intro ings2 h
    rw [h]

end services

namespace services

/-- C4: for a text `p ++ b ++ s` in which `p` has no opening brace, `s` has no closing brace
and `b` begins with an opening and ends with a closing brace, the cleaning step of
`GenerateGroceryList` yields exactly `b`.  For the text
"Here is your list:\n{"Dairy":["Milk"]}\nEnjoy!" the cleaned text is {"Dairy":["Milk"]}, it
parses to the map from "Dairy" to ["Milk"], and that map is the grocery list returned. -/
theorem cleanResponse_extracts_object (w : World) (p b s : String)
    (hp : '\x7b' ∉ p.data) (hs : '\x7d' ∉ s.data)
    (hb1 : b.data.head? = some '\x7b') (hb2 : b.data.getLast? = some '\x7d') :
    cleanResponse (p ++ b ++ s) = b ∧
    cleanResponse "Here is your list:\n\x7b\"Dairy\":[\"Milk\"]\x7d\nEnjoy!" =
      "\x7b\"Dairy\":[\"Milk\"]\x7d" ∧
    json.Unmarshal (cleanResponse "Here is your list:\n\x7b\"Dairy\":[\"Milk\"]\x7d\nEnjoy!") =
      some [("Dairy", ["Milk"])] ∧
    (processResponse w "Here is your list:\n\x7b\"Dairy\":[\"Milk\"]\x7d\nEnjoy!").1 =
      (some [("grocery_list", .groceryList [("Dairy", ["Milk"])]),
             ("healthier_swaps", .swaps [("Milk", "oat milk or almond milk")])], none) := by
  have hclean : cleanResponse "Here is your list:\n\x7b\"Dairy\":[\"Milk\"]\x7d\nEnjoy!" =
      "\x7b\"Dairy\":[\"Milk\"]\x7d" := by decide
  refine ⟨?_, hclean, ?_, ?_⟩
  · obtain ⟨mid, hmid⟩ := split_braced b.data hb1 hb2
    have e : p ++ b ++ s = ⟨p.data ++ ('\x7b' :: mid ++ ['\x7d']) ++ s.data⟩ := by
      apply String.ext
      simp [hmid]
    have eb : b = ⟨'\x7b' :: mid ++ ['\x7d']⟩ := String.ext hmid
    rw [e, eb]
    exact cleanResponse_parts p.data mid s.data hp hs
  · rw [hclean]
    decide
  · have hu : w.unmarshal "\x7b\"Dairy\":[\"Milk\"]\x7d" = .ok [("Dairy", ["Milk"])] := rfl
    have hf := flattenIngredients_singleton w "Dairy" ["Milk"]
    have hsw : SuggestHealthierSwaps w.unicodeLower ["Milk"] =
        ([("Milk", "oat milk or almond milk")], none) := rfl
    simp only [processResponse, hclean, hu, hf, hsw]

/-- Witness of C4: the example of the specification, split into prose, object and prose. -/
theorem cleanResponse_extracts_object_witness :
    ('\x7b' ∉ "Here is your list:\n".data ∧ '\x7d' ∉ "\nEnjoy!".data ∧
      "\x7b\"Dairy\":[\"Milk\"]\x7d".data.head? = some '\x7b' ∧
      "\x7b\"Dairy\":[\"Milk\"]\x7d".data.getLast? = some '\x7d') ∧
    cleanResponse ("Here is your list:\n" ++ "\x7b\"Dairy\":[\"Milk\"]\x7d" ++ "\nEnjoy!") =
      "\x7b\"Dairy\":[\"Milk\"]\x7d" :=
  ⟨by decide,
   (cleanResponse_extracts_object (World.fixed "key" (.ok (genai.textReply "")))
    "Here is your list:\n" "\x7b\"Dairy\":[\"Milk\"]\x7d" "\nEnjoy!"
    (by decide) (by decide) (by decide) (by decide)).1⟩

/-- C5 (as amended): when the model's text has no brace pair (no opening brace, or no closing
brace, or the last closing brace not after the first opening brace) and its trimmed form is
not the literal `null`, `GenerateGroceryList` returns no result and the error "failed to parse
JSON response: ..." carrying the trimmed text.  For every text, the call fails with that
error, carrying the cleaned text, exactly when `json.Unmarshal` rejects the cleaned text. -/
theorem generateGroceryList_no_brace_pair (w : World) (meals : List String) (raw : String)
    (hm : ModelAnswers w meals raw) :
    (('\x7b' ∉ raw.data ∨ '\x7d' ∉ raw.data ∨
        strings.LastIndex raw '\x7d' ≤ strings.Index raw '\x7b') →
      strings.TrimSpace raw ≠ "null" →
      (GenerateGroceryList w meals).1 =
        .returned (none, some (errParse (w.jsonDiagnostic (strings.TrimSpace raw))
          (strings.TrimSpace raw)))) ∧
    (json.Unmarshal (cleanResponse raw) = none ↔
      (GenerateGroceryList w meals).1 =
        .returned (none, some (errParse (w.jsonDiagnostic (cleanResponse raw))
          (cleanResponse raw)))) := by
  have hres := generateGroceryList_of_text w meals raw hm
  refine ⟨?_, ?_⟩
  · intro hpair hnull
    have hnp := strings.no_pair_trimSpace raw hpair
    have hclean : cleanResponse raw = strings.TrimSpace raw := by
      unfold cleanResponse
      simp only
      rw [if_neg hnp]
    have hrej : json.Unmarshal (cleanResponse raw) = none := by
      rw [hclean]
      cases hu : json.Unmarshal (strings.TrimSpace raw) with
      | none => rfl
      | some m =>
        rcases json.unmarshal_trimSpace raw m hu with h | ⟨h1, h2⟩
        · exact absurd h hnull
        · exact absurd ⟨by omega, by omega⟩ hnp
    rw [hres, processResponse_of_rejected w raw hrej, hclean]
  · constructor
    · intro hrej
      rw [hres, processResponse_of_rejected w raw hrej]
    · intro h
      cases hu : json.Unmarshal (cleanResponse raw) with
      | none => rfl
      | some m =>
        rw [hres, processResponse_of_accepted w raw m hu] at h
        simp at h

/-- Counterexample to C5 as stated: the text `null` contains no brace, and the text
{"a":["{"]} has two opening braces and one closing brace, yet `GenerateGroceryList`
succeeds on both. -/
theorem generateGroceryList_null_accepted :
    ('\x7b' ∉ "null".data ∧
      (GenerateGroceryList (World.fixed "key" (.ok (genai.textReply "null"))) ["pasta"]).1 =
        .returned (some [("grocery_list", .groceryList []), ("healthier_swaps", .swaps [])],
          none)) ∧
    ("\x7b\"a\":[\"\x7b\"]\x7d".data.count '\x7b' = 2 ∧
      "\x7b\"a\":[\"\x7b\"]\x7d".data.count '\x7d' = 1 ∧
      (GenerateGroceryList
        (World.fixed "key" (.ok (genai.textReply "\x7b\"a\":[\"\x7b\"]\x7d"))) ["pasta"]).1 =
        .returned (some [("grocery_list", .groceryList [("a", ["\x7b"])]),
          ("healthier_swaps", .swaps [])], none)) := by
  decide

/-- Witness of C5 (as amended): a reply in prose, without any brace. -/
theorem generateGroceryList_no_brace_pair_witness :
    ModelAnswers (World.fixed "key" (.ok (genai.textReply " Sorry, no list today. ")))
      ["pasta"] " Sorry, no list today. " ∧
    (GenerateGroceryList (World.fixed "key" (.ok (genai.textReply " Sorry, no list today. ")))
      ["pasta"]).1 =
      .returned (none, some
        "failed to parse JSON response: invalid JSON (received: Sorry, no list today.)") :=
  ⟨⟨by decide, by decide, rfl, [], [], rfl⟩,
   (generateGroceryList_no_brace_pair
    (World.fixed "key" (.ok (genai.textReply " Sorry, no list today. "))) ["pasta"]
    " Sorry, no list today. " ⟨by decide, by decide, rfl, [], [], rfl⟩).1
    (Or.inl (by decide)) (by decide)⟩

/-- C6: with meals ["pasta"], a configured credential and a model that answers
{"Pantry":["Pasta","Olive Oil"]}, `GenerateGroceryList` succeeds; `grocery_list` maps "Pantry"
to ["Pasta", "Olive Oil"], and `healthier_swaps` has exactly the two entries "Pasta" and
"Olive Oil", keyed by the original capitalised strings. -/
theorem generateGroceryList_pasta (w : World)
    (hm : ModelAnswers w ["pasta"] "\x7b\"Pantry\":[\"Pasta\",\"Olive Oil\"]\x7d") :
    (GenerateGroceryList w ["pasta"]).1 =
      .returned
        (some [("grocery_list", .groceryList [("Pantry", ["Pasta", "Olive Oil"])]),
               ("healthier_swaps",
                .swaps [("Pasta", "whole grain pasta or zucchini noodles"),
                        ("Olive Oil", "avocado oil")])],
         none) := by
  rw [generateGroceryList_of_text w _ _ hm]
  have hu : json.Unmarshal (cleanResponse "\x7b\"Pantry\":[\"Pasta\",\"Olive Oil\"]\x7d") =
      some [("Pantry", ["Pasta", "Olive Oil"])] := by decide
  rw [processResponse_of_accepted w _ _ hu, flattenIngredients_singleton]
  rfl

/-- Witness of C6: a world whose model gives that answer. -/
theorem generateGroceryList_pasta_witness :
    ModelAnswers
      (World.fixed "key" (.ok (genai.textReply "\x7b\"Pantry\":[\"Pasta\",\"Olive Oil\"]\x7d")))
      ["pasta"] "\x7b\"Pantry\":[\"Pasta\",\"Olive Oil\"]\x7d" ∧
    (GenerateGroceryList
      (World.fixed "key" (.ok (genai.textReply "\x7b\"Pantry\":[\"Pasta\",\"Olive Oil\"]\x7d")))
      ["pasta"]).1 =
      .returned
        (some [("grocery_list", .groceryList [("Pantry", ["Pasta", "Olive Oil"])]),
               ("healthier_swaps",
                .swaps [("Pasta", "whole grain pasta or zucchini noodles"),
                        ("Olive Oil", "avocado oil")])],
         none) :=
  ⟨⟨by decide, by decide, rfl, [], [], rfl⟩,
   generateGroceryList_pasta _ ⟨by decide, by decide, rfl, [], [], rfl⟩⟩

/-- C7: for the empty meal list `GenerateGroceryList` returns a nil result and the error "no
meals provided" in every world, and causes no event: the environment is not read, no client
is created and the model is not called. -/
theorem generateGroceryList_empty (w : World) :
    GenerateGroceryList w [] = (.returned (none, some "no meals provided"), []) := by
  rfl

end services

namespace handlers

/-- C8 (the code departs from it): when the body parses and the orchestrator succeeds, the
handler answers 200 with a body whose only top-level key is `grocery_list`; the value under
it is the orchestrator's whole result, which in turn holds `grocery_list` and
`healthier_swaps`.  Shown for the request with meals ["pasta"] and the model's answer
{"Pantry":["Pasta","Olive Oil"]}, and for every successful call. -/
theorem handler_success_nests_result :
    (GenerateGroceryList
      (World.fixed "key" (.ok (genai.textReply "\x7b\"Pantry\":[\"Pasta\",\"Olive Oil\"]\x7d")))
      (.ok ["pasta"])).1 =
      .returned
        { status := 200,
          body := [("grocery_list", .result (some
            [("grocery_list", .groceryList [("Pantry", ["Pasta", "Olive Oil"])]),
             ("healthier_swaps",
              .swaps [("Pasta", "whole grain pasta or zucchini noodles"),
                      ("Olive Oil", "avocado oil")])]))] } ∧
    (∀ (w : World) (meals : List String) (r : Option services.Result) (trace : List Event),
      services.GenerateGroceryList w meals = (.returned (r, none), trace) →
      ∃ resp, (GenerateGroceryList w (.ok meals)).1 = .returned resp ∧ resp.status = 200 ∧
        resp.body = [("grocery_list", .result r)] ∧ resp.body.keys = ["grocery_list"] ∧
        "healthier_swaps" ∉ resp.body.keys) := by
  refine ⟨by decide, ?_⟩
  intro w meals r trace h
  refine ⟨{ status := 200, body := [("grocery_list", .result r)] }, ?_, rfl, rfl, rfl,
    by simp [GoMap.keys]⟩
  unfold GenerateGroceryList
  simp only [h]

/-- C9: an unparseable body is answered with 400 and an error message, without any event
(the orchestrator is not called) and whatever the world is; for a parsed body every error of
the orchestrator is answered with 500 and the body {"error": the error's text}, in
particular "no meals provided" for an empty or absent `meals`; and a 200 is only answered
when the body parsed and the orchestrator returned no error. -/
theorem handler_status_mapping :
    (∀ (w : World) (e : String),
      GenerateGroceryList w (.error e) =
        (.returned { status := 400, body := [("error", .text "Invalid request body")] }, [])) ∧
    (∀ (w : World) (meals : List String) (r : Option services.Result) (err : String)
      (trace : List Event),
      services.GenerateGroceryList w meals = (.returned (r, some err), trace) →
      (GenerateGroceryList w (.ok meals)).1 =
        .returned { status := 500, body := [("error", .text err)] }) ∧
    (∀ w : World, (GenerateGroceryList w (.ok [])).1 =
      .returned { status := 500, body := [("error", .text "no meals provided")] }) ∧
    (∀ (w : World) (parsed : Except String (List String)) (resp : Response),
      (GenerateGroceryList w parsed).1 = .returned resp → resp.status = 200 →
      ∃ meals r trace, parsed = .ok meals ∧
        services.GenerateGroceryList w meals = (.returned (r, none), trace)) := by
  refine ⟨fun _ _ => rfl, ?_, fun _ => rfl, ?_⟩
  · intro w meals r err trace h
    unfold GenerateGroceryList
    simp only [h]
  · intro w parsed resp h hs
    cases parsed with
    | error e =>
      have : resp = { status := 400, body := [("error", .text "Invalid request body")] } := by
        have h' : (Outcome.returned
            ({ status := 400, body := [("error", .text "Invalid request body")] } : Response)) =
            .returned resp := h
        injection h' with h'
        exact h'.symm
      rw [this] at hs
      exact absurd hs (by decide)
    | ok meals =>
      refine ⟨meals, ?_⟩
      unfold GenerateGroceryList at h
      simp only at h
      generalize services.GenerateGroceryList w meals = res at h ⊢
      obtain ⟨out, trace⟩ := res
      cases out with
      | panicked reason => simp at h
      | returned v =>
        obtain ⟨r, e⟩ := v
        cases e with
        | none => exact ⟨r, trace, rfl, rfl⟩
        | some err =>
          simp only [Outcome.returned.injEq] at h
          rw [← h] at hs
          simp at hs

end handlers

namespace services

/-- C10 (the code departs from it): for meals ["pasta"], a configured API key and a response
whose first candidate has a nil `Content`, `GenerateGroceryList` panics on the nil pointer and
returns nothing, neither an error nor a result.  Every call that does return gives a nil
result with an error or a result with both keys and a nil error, and a panic has no other
cause than a nil `Content` in the first candidate. -/
theorem generateGroceryList_nil_content_panics :
    (GenerateGroceryList (World.fixed "key" (.ok ⟨[⟨none⟩]⟩)) ["pasta"]).1 =
      .panicked "runtime error: invalid memory address or nil pointer dereference" ∧
    (∀ (w : World) (meals : List String),
      (∃ err, (GenerateGroceryList w meals).1 = .returned (none, some err)) ∨
      (∃ g s, (GenerateGroceryList w meals).1 =
        .returned (some [("grocery_list", .groceryList g), ("healthier_swaps", .swaps s)],
          none)) ∨
      (∃ reason rest, (GenerateGroceryList w meals).1 = .panicked reason ∧
        w.generateContent "gemini-1.5-pro" (buildPrompt meals) = .ok ⟨⟨none⟩ :: rest⟩)) :=
  ⟨by decide, generateGroceryList_shape⟩

end services

namespace services

/-- C11: the substitution lookup does not depend on the order of the ingredients: for a
permutation `ys` of `xs` the two results bind every key to the same value and hold the same
entries; the same is true of any list `zs` with the same elements as `xs`, however often
they are repeated; and two worlds that visit the categories of a grocery list in different
orders obtain the same swaps from it. -/
theorem suggestHealthierSwaps_order_independent (U : Char → Char) (xs ys : List String)
    (h : ys.Perm xs) :
    (∀ k, (SuggestHealthierSwaps U ys).1.lookup k = (SuggestHealthierSwaps U xs).1.lookup k) ∧
    (SuggestHealthierSwaps U ys).1.Perm (SuggestHealthierSwaps U xs).1 ∧
    (∀ zs : List String, (∀ x, x ∈ zs ↔ x ∈ xs) →
      (∀ k, (SuggestHealthierSwaps U zs).1.lookup k =
        (SuggestHealthierSwaps U xs).1.lookup k) ∧
      (SuggestHealthierSwaps U zs).1.Perm (SuggestHealthierSwaps U xs).1) ∧
    (∀ (w1 w2 : World) (g : GoMap (List String)),
      (∀ k, (SuggestHealthierSwaps U (flattenIngredients w1 g)).1.lookup k =
        (SuggestHealthierSwaps U (flattenIngredients w2 g)).1.lookup k) ∧
      (SuggestHealthierSwaps U (flattenIngredients w1 g)).1.Perm
        (SuggestHealthierSwaps U (flattenIngredients w2 g)).1) := by
  have key : ∀ as bs : List String, (∀ x, x ∈ as ↔ x ∈ bs) →
      (∀ k, (SuggestHealthierSwaps U as).1.lookup k =
        (SuggestHealthierSwaps U bs).1.lookup k) ∧
      (SuggestHealthierSwaps U as).1.Perm (SuggestHealthierSwaps U bs).1 := by
    intro as bs hab
    have hl := lookup_swaps_congr U bs as hab
    exact ⟨hl, GoMap.perm_of_lookup_eq _ _ (swaps_keys_nodup U as) (swaps_keys_nodup U bs) hl⟩
  have hxy := key ys xs (fun x => h.mem_iff)
  refine ⟨hxy.1, hxy.2, fun zs hz => key zs xs hz, ?_⟩
  intro w1 w2 g
  apply key
  intro x
  rw [mem_flattenIngredients, mem_flattenIngredients]

/-- Witness of C11: a list with a repeated element and one of its permutations. -/
theorem suggestHealthierSwaps_order_independent_witness :
    ["Milk", "Pasta", "kale", "Milk"].Perm ["Pasta", "Milk", "Milk", "kale"] ∧
    (∀ k, (SuggestHealthierSwaps id ["Milk", "Pasta", "kale", "Milk"]).1.lookup k =
      (SuggestHealthierSwaps id ["Pasta", "Milk", "Milk", "kale"]).1.lookup k) :=
  ⟨by decide,
   (suggestHealthierSwaps_order_independent id ["Pasta", "Milk", "Milk", "kale"]
    ["Milk", "Pasta", "kale", "Milk"] (by decide)).1⟩

end services


namespace services

/-- C12: for a non-empty meal list and an API key that is unset or empty,
`GenerateGroceryList` returns a nil result and the error "Gemini API key not found in
environment variables"; its only event is the reading of the environment variable: no
client is created, no prompt is built or printed, and the model is not called. -/
theorem generateGroceryList_missing_credential (w : World) (meals : List String)
    (hm : meals ≠ []) (hk : w.getenv "GEMINI_API_KEY" = "") :
    GenerateGroceryList w meals =
      (.returned (none, some "Gemini API key not found in environment variables"),
       [Event.getenv "GEMINI_API_KEY"]) := by
  have h1 : ¬ meals.length = 0 := fun e => hm (List.length_eq_zero.1 e)
  unfold GenerateGroceryList
  simp only [h1, if_false, hk, if_true]
  rfl

/-- Witness of C12: a world without an API key. -/
theorem generateGroceryList_missing_credential_witness :
    (["pasta"] ≠ [] ∧
      (World.fixed "" (.ok (genai.textReply "null"))).getenv "GEMINI_API_KEY" = "") ∧
    GenerateGroceryList (World.fixed "" (.ok (genai.textReply "null"))) ["pasta"] =
      (.returned (none, some "Gemini API key not found in environment variables"),
       [Event.getenv "GEMINI_API_KEY"]) :=
  ⟨by decide,
   generateGroceryList_missing_credential (World.fixed "" (.ok (genai.textReply "null")))
    ["pasta"] (by decide) (by decide)⟩

/-- C13 (the code departs from it): for meals ["pasta"], a configured API key and a response
whose first candidate has a nil `Content`, hence no parts, `GenerateGroceryList` panics
instead of failing with "no response generated from Gemini".  Apart from that: a response
without candidates, or whose first candidate has a content without parts, gives that error;
and two worlds that differ only in the model's response, the two responses having the same
first part in their first candidate, give the same outcome and the same events. -/
theorem generateGroceryList_empty_response :
    (GenerateGroceryList (World.fixed "key" (.ok ⟨[⟨none⟩]⟩)) ["pasta"]).1 =
      .panicked "runtime error: invalid memory address or nil pointer dereference" ∧
    (∀ (w : World) (meals : List String) (reply : genai.GenerateContentResponse),
      meals ≠ [] → w.getenv "GEMINI_API_KEY" ≠ "" →
      w.newClient (w.getenv "GEMINI_API_KEY") = none →
      w.generateContent "gemini-1.5-pro" (buildPrompt meals) = .ok reply →
      (reply.Candidates = [] →
        (GenerateGroceryList w meals).1 = .returned (none, some errNoResponse)) ∧
      (∀ rest, reply.Candidates = ⟨some ⟨[]⟩⟩ :: rest →
        (GenerateGroceryList w meals).1 = .returned (none, some errNoResponse)) ∧
      (∀ rest, reply.Candidates = ⟨none⟩ :: rest →
        (GenerateGroceryList w meals).1 =
          .panicked "runtime error: invalid memory address or nil pointer dereference")) ∧
    (∀ (w1 w2 : World) (meals : List String) (part : genai.Part)
      (parts1 parts2 : List genai.Part) (rest1 rest2 : List genai.Candidate),
      w1.getenv = w2.getenv → w1.newClient = w2.newClient →
      w1.jsonDiagnostic = w2.jsonDiagnostic →
      @World.rangeOrder w1 = @World.rangeOrder w2 →
      w1.unicodeLower = w2.unicodeLower →
      w1.generateContent "gemini-1.5-pro" (buildPrompt meals) =
        .ok ⟨⟨some ⟨part :: parts1⟩⟩ :: rest1⟩ →
      w2.generateContent "gemini-1.5-pro" (buildPrompt meals) =
        .ok ⟨⟨some ⟨part :: parts2⟩⟩ :: rest2⟩ →
      GenerateGroceryList w1 meals = GenerateGroceryList w2 meals) :=
  ⟨by decide,
   fun w meals reply hm hk hc hr => generateGroceryList_of_reply w meals hm hk hc reply hr,
   fun w1 w2 meals part parts1 parts2 rest1 rest2 henv hcl hd hro hu h1 h2 =>
     generateGroceryList_first_part w1 w2 meals part parts1 parts2 rest1 rest2
       henv hcl hd hro hu h1 h2⟩

end services


namespace services

/-- C14: for every ingredient map the list returned by `MergeIngredients` has no duplicates,
and a string is in it exactly when it is in one of the lists of the map: it occurs once in
the output when it occurs in some list, and not at all otherwise.  For a map given with
pairwise distinct keys, "some list" is the list stored under some key. -/
theorem mergeIngredients_union (w : World) (m : IngredientMap) :
    (MergeIngredients w m).Nodup ∧
    (∀ s, s ∈ MergeIngredients w m ↔ ∃ e ∈ m, s ∈ e.2) ∧
    (∀ s, (∃ e ∈ m, s ∈ e.2) → (MergeIngredients w m).count s = 1) ∧
    (∀ s, (¬ ∃ e ∈ m, s ∈ e.2) → (MergeIngredients w m).count s = 0) ∧
    (m.keys.Nodup → ∀ s, s ∈ MergeIngredients w m ↔
      ∃ meal list, m.lookup meal = some list ∧ s ∈ list) := by
  obtain ⟨hnd, hmem⟩ := mergeIngredients_spec w m
  refine ⟨hnd, hmem, ?_, ?_, ?_⟩
  · intro s hs
    exact List.count_eq_one_of_mem hnd ((hmem s).2 hs)
  · intro s hs
    exact List.count_eq_zero_of_not_mem (fun h => hs ((hmem s).1 h))
  · intro hk s
    rw [hmem]
    constructor
    · rintro ⟨⟨meal, list⟩, he, hs⟩
      exact ⟨meal, list, (GoMap.mem_iff_lookup m hk meal list).1 he, hs⟩
    · rintro ⟨meal, list, hl, hs⟩
      exact ⟨(meal, list), (GoMap.mem_iff_lookup m hk meal list).2 hl, hs⟩

end services


namespace services

/-- C15: `ExpandMeals` returns a nil error exactly when the meal list is not empty and every
meal is "pasta", "salad" or "pancakes" once lower-cased; the map it then returns has the
lower-cased meals as its keys, each bound to its fixed list of four ingredients.  On the
empty list it returns a nil map and "no meals provided"; when some meal is not recognised it
returns a nil map and "unknown meal: " followed by the first such meal as it was spelled. -/
theorem expandMeals_spec (U : Char → Char) (meals : List String) :
    ((ExpandMeals U meals).2 = none ↔
      meals ≠ [] ∧ ∀ m ∈ meals, strings.ToLower U m ∈ ["pasta", "salad", "pancakes"]) ∧
    ((ExpandMeals U meals).2 = none →
      ∃ map, ExpandMeals U meals = (some map, none) ∧ map.keys.Nodup ∧
        (∀ k, k ∈ map.keys ↔ k ∈ meals.map (strings.ToLower U)) ∧
        (∀ k, k ∈ map.keys → map.lookup k =
          if k = "pasta" then some ["spaghetti", "olive oil", "garlic", "tomatoes"]
          else if k = "salad" then some ["lettuce", "tomatoes", "cucumber", "olive oil"]
          else some ["flour", "milk", "eggs", "baking powder"])) ∧
    (meals = [] → ExpandMeals U meals = (none, some "no meals provided")) ∧
    (∀ pre m0 post, meals = pre ++ m0 :: post →
      (∀ m ∈ pre, strings.ToLower U m ∈ ["pasta", "salad", "pancakes"]) →
      strings.ToLower U m0 ∉ ["pasta", "salad", "pancakes"] →
      ExpandMeals U meals = (none, some ("unknown meal: " ++ m0))) := by
  have hunk : ∀ pre m0 post, meals = pre ++ m0 :: post →
      (∀ m ∈ pre, strings.ToLower U m ∈ ["pasta", "salad", "pancakes"]) →
      strings.ToLower U m0 ∉ ["pasta", "salad", "pancakes"] →
      ExpandMeals U meals = (none, some ("unknown meal: " ++ m0)) := by
    intro pre m0 post e hpre h0
    subst e
    unfold ExpandMeals
    rw [if_neg (by simp)]
    exact expandLoop_unknown U pre post m0 [] hpre h0
  have hok : meals ≠ [] →
      (∀ m ∈ meals, strings.ToLower U m ∈ ["pasta", "salad", "pancakes"]) →
      ∃ map, ExpandMeals U meals = (some map, none) ∧ map.keys.Nodup ∧
        (∀ k, k ∈ map.keys ↔ k ∈ meals.map (strings.ToLower U)) ∧
        (∀ k, k ∈ map.keys → map.lookup k =
          if k = "pasta" then some ["spaghetti", "olive oil", "garlic", "tomatoes"]
          else if k = "salad" then some ["lettuce", "tomatoes", "cucumber", "olive oil"]
          else some ["flour", "milk", "eggs", "baking powder"]) := by
    intro hne hall
    obtain ⟨map, hmap, hnd, hlook⟩ := expandLoop_ok U meals [] hall
    have hkeys : ∀ k, k ∈ map.keys ↔ k ∈ meals.map (strings.ToLower U) := by
      intro k
      rw [GoMap.mem_keys_iff, hlook k]
      by_cases hk : k ∈ meals.map (strings.ToLower U)
      · simp only [hk, if_true, iff_true]
        by_cases h1 : k = "pasta"
        · exact ⟨_, by rw [if_pos h1]⟩
        by_cases h2 : k = "salad"
        · exact ⟨_, by rw [if_neg h1, if_pos h2]⟩
        exact ⟨_, by rw [if_neg h1, if_neg h2]⟩
      · simp [hk, GoMap.lookup]
    refine ⟨map, ?_, hnd (by simp [GoMap.keys]), hkeys, ?_⟩
    · unfold ExpandMeals
      rw [if_neg (fun e => hne (List.length_eq_zero.1 e))]
      exact hmap
    · intro k hk
      rw [hlook k, if_pos ((hkeys k).1 hk)]
  have hempty : meals = [] → ExpandMeals U meals = (none, some "no meals provided") := by
    intro e
    subst e
    rfl
  refine ⟨?_, ?_, hempty, hunk⟩
  · constructor
    · intro hnone
      by_cases hne : meals = []
      · rw [hempty hne] at hnone
        simp at hnone
      · refine ⟨hne, ?_⟩
        by_contra hall
        obtain ⟨pre, m0, post, e, hpre, h0⟩ := exists_first_unknown U meals hall
        rw [hunk pre m0 post e hpre h0] at hnone
        simp at hnone
    · rintro ⟨hne, hall⟩
      obtain ⟨map, hmap, -⟩ := hok hne hall
      rw [hmap]
  · intro hnone
    by_cases hne : meals = []
    · rw [hempty hne] at hnone
      simp at hnone
    · by_cases hall : ∀ m ∈ meals, strings.ToLower U m ∈ ["pasta", "salad", "pancakes"]
      · exact hok hne hall
      · obtain ⟨pre, m0, post, e, hpre, h0⟩ := exists_first_unknown U meals hall
        rw [hunk pre m0 post e hpre h0] at hnone
        simp at hnone

end services


namespace services

/-- C16: the cleaning step of `GenerateGroceryList` is idempotent: cleaning a cleaned text
returns it unchanged; and when the slice is taken (a first opening brace is found before a
last closing brace in the trimmed text), the cleaned text begins with an opening brace, ends
with a closing brace, and is a contiguous part of the raw text.  When no slice is taken the
cleaned text is the trimmed text, also a contiguous part of the raw text. -/
theorem cleanResponse_idempotent (t : String) :
    cleanResponse (cleanResponse t) = cleanResponse t ∧
    ((strings.Index (strings.TrimSpace t) '\x7b' ≥ 0 ∧
        strings.LastIndex (strings.TrimSpace t) '\x7d' >
          strings.Index (strings.TrimSpace t) '\x7b') →
      (cleanResponse t).data.head? = some '\x7b' ∧
      (cleanResponse t).data.getLast? = some '\x7d' ∧
      (cleanResponse t).data <:+: t.data) ∧
    (¬ (strings.Index (strings.TrimSpace t) '\x7b' ≥ 0 ∧
        strings.LastIndex (strings.TrimSpace t) '\x7d' >
          strings.Index (strings.TrimSpace t) '\x7b') →
      cleanResponse t = strings.TrimSpace t ∧ (cleanResponse t).data <:+: t.data) := by
  have hno : ¬ (strings.Index (strings.TrimSpace t) '\x7b' ≥ 0 ∧
      strings.LastIndex (strings.TrimSpace t) '\x7d' >
        strings.Index (strings.TrimSpace t) '\x7b') →
      cleanResponse t = strings.TrimSpace t := by
    intro h
    unfold cleanResponse
    simp only
    rw [if_neg h]
  refine ⟨?_, ?_, ?_⟩
  · by_cases h : strings.Index (strings.TrimSpace t) '\x7b' ≥ 0 ∧
        strings.LastIndex (strings.TrimSpace t) '\x7d' >
          strings.Index (strings.TrimSpace t) '\x7b'
    · obtain ⟨mid, e, -⟩ := cleanResponse_of_pair t h
      rw [e]
      exact cleanResponse_braced mid
    · rw [hno h]
      unfold cleanResponse
      simp only
      rw [strings.trimSpace_idempotent, if_neg h]
  · intro h
    obtain ⟨mid, e, hsub⟩ := cleanResponse_of_pair t h
    rw [e]
    refine ⟨rfl, ?_, hsub⟩
    show ('\x7b' :: mid ++ ['\x7d']).getLast? = some '\x7d'
    rw [List.getLast?_append]
    simp
  · intro h
    refine ⟨hno h, ?_⟩
    rw [hno h]
    obtain ⟨pre0, post0, e0, -, -⟩ := strings.trimSpace_decomp t
    exact ⟨pre0, post0, e0.symm⟩

end services


namespace services

/-- C17: whenever `GenerateGroceryList` succeeds, its result holds a grocery list and a map
of swaps such that every key of the swaps occurs, spelled identically, in the list of some
category of the grocery list, and every ingredient of a category list whose normalisation
is an alias of the table is a key of the swaps. -/
theorem generateGroceryList_swaps_invariant (w : World) (meals : List String) (r : Result)
    (h : (GenerateGroceryList w meals).1 = .returned (some r, none)) :
    ∃ g s, r = [("grocery_list", .groceryList g), ("healthier_swaps", .swaps s)] ∧
      r.lookup "grocery_list" = some (.groceryList g) ∧
      r.lookup "healthier_swaps" = some (.swaps s) ∧
      (∀ k, k ∈ s.keys → ∃ category list, g.lookup category = some list ∧ k ∈ list) ∧
      (∀ category list x, g.lookup category = some list → x ∈ list →
        normalize w.unicodeLower x ∈ aliases → x ∈ s.keys) := by
  obtain ⟨raw, g, hg, hr⟩ := generateGroceryList_success w meals r h
  have hnd := json.unmarshal_keys_nodup _ g hg
  refine ⟨g, _, hr, ?_, ?_, ?_, ?_⟩
  · rw [hr]
    rfl
  · rw [hr]
    rfl
  · intro k hk
    rw [mem_swaps_keys_iff, mem_flattenIngredients] at hk
    obtain ⟨⟨⟨category, list⟩, he, hx⟩, -⟩ := hk
    exact ⟨category, list, (GoMap.mem_iff_lookup g hnd category list).1 he, hx⟩
  · intro category list x hl hx hn
    rw [mem_swaps_keys_iff, mem_flattenIngredients]
    exact ⟨⟨(category, list), (GoMap.mem_iff_lookup g hnd category list).2 hl, hx⟩, hn⟩

/-- Witness of C17: the successful call of the end-to-end example. -/
theorem generateGroceryList_swaps_invariant_witness :
    (GenerateGroceryList
      (World.fixed "key" (.ok (genai.textReply "\x7b\"Pantry\":[\"Pasta\",\"Kale\"]\x7d")))
      ["pasta"]).1 =
      .returned (some [("grocery_list", .groceryList [("Pantry", ["Pasta", "Kale"])]),
        ("healthier_swaps", .swaps [("Pasta", "whole grain pasta or zucchini noodles")])],
        none) ∧
    ∃ g s, [("grocery_list", Iface.groceryList [("Pantry", ["Pasta", "Kale"])]),
        ("healthier_swaps", Iface.swaps [("Pasta", "whole grain pasta or zucchini noodles")])] =
        [("grocery_list", .groceryList g), ("healthier_swaps", .swaps s)] ∧
      (∀ k, k ∈ s.keys → ∃ category list, g.lookup category = some list ∧ k ∈ list) :=
  ⟨by decide,
   (generateGroceryList_swaps_invariant
    (World.fixed "key" (.ok (genai.textReply "\x7b\"Pantry\":[\"Pasta\",\"Kale\"]\x7d")))
    ["pasta"] _ (by decide)).imp
    (fun _ hg => hg.imp (fun _ hs => ⟨hs.1, hs.2.2.2.1⟩))⟩

end services
